import Mathlib

/-! LLM_ResearchPaper_Analysis: retrieval engine and generation session.

A shallow embedding of `src/ragengine.js` (class `RAGEngine`) and
`src/llmclient.js` (class `LLMClient`), with the properties of the
specification that concern chunking, ranking, ingestion and chat recovery.

Conventions of the embedding:
* a JavaScript string is the list of its UTF-16 code units (`JSString`);
* the integer arguments of `chunkText` are `Int` (they may be negative);
* a `while` loop or a recursive `async` call takes a fuel argument and
  returns `none` when the fuel runs out before the code returns.
-/

set_option autoImplicit false

/-! ## Definitions -/

/-- A UTF-16 code unit: a number below `2 ^ 16`. -/
abbrev CodeUnit := Nat

/-- A JavaScript string, as the sequence of its UTF-16 code units. The property
`length` and the method `slice` count code units, so a character outside the
basic plane takes two places (a surrogate pair). -/
abbrev JSString := List CodeUnit

/-- The code units of one character: its code in the basic plane, and the
surrogate pair of its code beyond. -/
def codeUnits (c : Char) : List CodeUnit :=
  if c.toNat < 0x10000 then [c.toNat]
  else [0xD800 + (c.toNat - 0x10000) / 0x400, 0xDC00 + (c.toNat - 0x10000) % 0x400]

/-- The JavaScript string with the characters of `s`. -/
def utf16 (s : String) : JSString :=
  (s.data.map codeUnits).flatten

namespace RAGEngine

/-- The characters matched by the regular expression class `\s`, which are also
the characters removed by `String.prototype.trim`. -/
def isWhitespace (c : CodeUnit) : Bool :=
  let n := c
  n == 9 || n == 10 || n == 11 || n == 12 || n == 13 || n == 32 || n == 0xA0 ||
  n == 0x1680 || (0x2000 ≤ n && n ≤ 0x200A) || n == 0x2028 || n == 0x2029 ||
  n == 0x202F || n == 0x205F || n == 0x3000 || n == 0xFEFF

/-- The scan behind `text.replace(/\s+/g, ' ')`: `inRun` tells that the previous
code unit was whitespace, so that the current run was already replaced. -/
def collapseFrom : Bool → JSString → JSString
  | _, [] => []
  | inRun, c :: cs =>
    if isWhitespace c then
      if inRun then collapseFrom true cs else 32 :: collapseFrom true cs
    else c :: collapseFrom false cs

/-- The call `text.replace(/\s+/g, ' ')`: every maximal run of whitespace becomes one space. -/
def collapseWhitespace (text : JSString) : JSString :=
  collapseFrom false text

/-- The method `String.prototype.trim`: whitespace removed at both ends. -/
def trim (s : JSString) : JSString :=
  ((s.dropWhile isWhitespace).reverse.dropWhile isWhitespace).reverse

/-- The constant `cleanText` of `chunkText`: `text.replace(/\s+/g, ' ').trim()`. -/
def cleanText (text : JSString) : JSString :=
  trim (collapseWhitespace text)

/-- The method `String.prototype.trimEnd`: whitespace removed at the end. -/
def trimEnd (s : JSString) : JSString :=
  (s.reverse.dropWhile isWhitespace).reverse

/-- The words of a text: the pieces between its whitespace code units, the empty
pieces left out. -/
def wordsOf (text : JSString) : List JSString :=
  (text.splitOnP isWhitespace).filter (fun w => !w.isEmpty)

/-- The whitespace-normalized text of the specification (runs of whitespace
collapsed to one space, ends trimmed): the words of the text, in order, with one
space between two neighbours. It is defined without the code of `chunkText`. -/
def normalizedText (text : JSString) : JSString :=
  List.intercalate [32] (wordsOf text)

/-- A relative index of `String.prototype.slice`, clamped into `0 .. len`:
a negative index counts from the end. -/
def clampIndex (len : Nat) (i : Int) : Nat :=
  if i < 0 then (max ((len : Int) + i) 0).toNat else (min i (len : Int)).toNat

/-- The method `String.prototype.slice(start, end)`. -/
def jsSlice (s : JSString) (start stop : Int) : JSString :=
  let a := clampIndex s.length start
  let b := clampIndex s.length stop
  (s.drop a).take (b - a)

/-- The `while (start < cleanText.length)` loop of `chunkText`. One unit of fuel
is one iteration; `none` means that the loop is still running when the fuel is
used up. -/
def chunkLoop (clean : JSString) (chunkSize overlap : Int) :
    Nat → Int → List JSString → Option (List JSString)
  | 0, start, chunks =>
    if start < (clean.length : Int) then none else some chunks
  | fuel + 1, start, chunks =>
    if start < (clean.length : Int) then
      chunkLoop clean chunkSize overlap fuel (start + (chunkSize - overlap))
        (chunks ++ [jsSlice clean start (start + chunkSize)])
    else some chunks

/-- The method `RAGEngine.chunkText(text, chunkSize, overlap)`. -/
def chunkText (fuel : Nat) (text : JSString) (chunkSize overlap : Int) :
    Option (List JSString) :=
  if text.isEmpty then some []
  else chunkLoop (cleanText text) chunkSize overlap fuel 0 []

/-- The sliding windows of the specification: the substrings
`N[i*(S-O) : min(i*(S-O)+S, len N)]` for `i = 0, 1, ...` while `i*(S-O) < len N`. -/
def slidingWindows (N : JSString) (S O : Nat) : List JSString :=
  ((List.range N.length).filter (fun i => i * (S - O) < N.length)).map
    (fun i => (N.drop (i * (S - O))).take (min (i * (S - O) + S) N.length - i * (S - O)))

/-- The chunk count of the specification: `ceil((L - O) / (S - O))`. -/
def specChunkCount (L S O : Int) : Int :=
  Int.ceil (((L - O : Int) : ℚ) / ((S - O : Int) : ℚ))

end RAGEngine

/-- A JavaScript number, without rounding: a finite value is an exact rational,
and the special values `NaN`, `+Infinity` and `-Infinity` follow the IEEE-754
rules the code relies on (`0/0`, `Infinity - Infinity` and `0 * Infinity` are
`NaN`). The rounding to a double, the signed zeros, overflow and underflow are
not modelled: a product of finite values is always finite here. -/
inductive JSNum where
  | nan
  | inf (negative : Bool)
  | fin (q : ℚ)
  deriving DecidableEq

namespace JSNum

/-- The operator `a + b`. -/
def add : JSNum → JSNum → JSNum
  | nan, _ => nan
  | _, nan => nan
  | inf s, inf t => if s = t then inf s else nan
  | inf s, fin _ => inf s
  | fin _, inf t => inf t
  | fin a, fin b => fin (a + b)

/-- The operator `-a`. -/
def neg : JSNum → JSNum
  | nan => nan
  | inf s => inf (!s)
  | fin a => fin (-a)

/-- The operator `a - b`. -/
def sub (a b : JSNum) : JSNum := add a (neg b)

/-- The operator `a * b`. -/
def mul : JSNum → JSNum → JSNum
  | nan, _ => nan
  | _, nan => nan
  | inf s, inf t => inf (xor s t)
  | inf s, fin q => if q = 0 then nan else inf (xor s (decide (q < 0)))
  | fin q, inf s => if q = 0 then nan else inf (xor s (decide (q < 0)))
  | fin a, fin b => fin (a * b)

/-- The operator `a / b`. -/
def div : JSNum → JSNum → JSNum
  | nan, _ => nan
  | _, nan => nan
  | inf _, inf _ => nan
  | inf s, fin q => inf (xor s (decide (q < 0)))
  | fin _, inf _ => fin 0
  | fin a, fin b =>
    if b = 0 then (if a = 0 then nan else inf (decide (a < 0))) else fin (a / b)

/-- The square root of a non-negative rational, without the rounding to a
double: exact on the square of a rational, and elsewhere the root rounded down to
a multiple of `1 / (q.den * 2 ^ 64)`. -/
def sqrtRat (q : ℚ) : ℚ :=
  (Nat.sqrt (q.num.toNat * q.den * 2 ^ 128) : ℚ) / ((q.den * 2 ^ 64 : Nat) : ℚ)

/-- The function `Math.sqrt`. -/
def sqrt : JSNum → JSNum
  | nan => nan
  | inf s => if s then nan else inf false
  | fin q => if q < 0 then nan else fin (sqrtRat q)

/-- The test `v > 0`. -/
def isPositive : JSNum → Bool
  | nan => false
  | inf s => !s
  | fin q => decide (0 < q)

/-- The test `Number.isNaN(v)`. -/
def isNaN : JSNum → Bool
  | nan => true
  | _ => false

/-- The comparison `a >= b` (false as soon as one side is `NaN`). -/
def ge : JSNum → JSNum → Bool
  | nan, _ => false
  | _, nan => false
  | inf s, inf t => !s || t
  | inf s, fin _ => !s
  | fin _, inf t => t
  | fin a, fin b => decide (b ≤ a)

/-- The values that a sum of products with a zero factor can take. -/
def ZeroOrNaN (x : JSNum) : Prop := x = fin 0 ∨ x = nan

end JSNum

namespace RAGEngine

/-- An embedding vector (`output.data`). -/
abbrev Embedding := List JSNum

/-- The element read `vec[i]`; outside the bounds it is `undefined`, which the
arithmetic operators convert to `NaN`. -/
def elemAt (vec : Embedding) (i : Nat) : JSNum :=
  vec.getD i JSNum.nan

/-- The loop of `cosineSimilarity`: the triple `(dotProduct, normA, normB)`
after the iterations `i = 0 .. vecA.length - 1`. -/
def cosineSums (vecA vecB : Embedding) : JSNum × JSNum × JSNum :=
  (List.range vecA.length).foldl
    (fun acc i =>
      (JSNum.add acc.1 (JSNum.mul (elemAt vecA i) (elemAt vecB i)),
       JSNum.add acc.2.1 (JSNum.mul (elemAt vecA i) (elemAt vecA i)),
       JSNum.add acc.2.2 (JSNum.mul (elemAt vecB i) (elemAt vecB i))))
    (JSNum.fin 0, JSNum.fin 0, JSNum.fin 0)

/-- The method `RAGEngine.cosineSimilarity(vecA, vecB)`:
`dotProduct / (Math.sqrt(normA) * Math.sqrt(normB))`. -/
def cosineSimilarity (vecA vecB : Embedding) : JSNum :=
  let sums := cosineSums vecA vecB
  JSNum.div sums.1 (JSNum.mul (JSNum.sqrt sums.2.1) (JSNum.sqrt sums.2.2))

/-- An element of `vectorStore`: `{ id, text, embedding, source }`. -/
structure ChunkRecord where
  id : String
  text : JSString
  embedding : Embedding
  source : String
  deriving DecidableEq

/-- An element of the array built in `search`: `{ ...doc, score }`. -/
structure Scored where
  doc : ChunkRecord
  score : JSNum
  deriving DecidableEq

/-- The comparator of `search`: `(a, b) => b.score - a.score`. -/
def compareScore (a b : Scored) : JSNum :=
  JSNum.sub b.score a.score

/-- The relation that lets `a` stay in front of `b` in a sort by `cmp`: the
comparator result is not `> 0` (a result `NaN` counts as `0`). -/
def staysBefore {α : Type} (cmp : α → α → JSNum) (a b : α) : Prop :=
  (cmp a b).isPositive = false

instance staysBeforeDecidable {α : Type} (cmp : α → α → JSNum) :
    DecidableRel (staysBefore cmp) :=
  fun a b => decEq (cmp a b).isPositive false

/-- The method `Array.prototype.sort(cmp)`. ECMAScript requires a stable sort;
it is modelled as the stable insertion sort. When the comparator never returns
`NaN` on the elements, every conforming engine returns this list, and so it does
on two elements whatever the comparator returns. When the comparator returns
`NaN` among three or more elements the order is left to the engine, and this
model stands for one possible engine only. -/
def jsSort {α : Type} (cmp : α → α → JSNum) (xs : List α) : List α :=
  List.insertionSort (staysBefore cmp) xs

/-- Lines 135-142 of `search`: score every record against the query vector,
sort by descending score and keep the first `topK` results. -/
def rank (vectorStore : List ChunkRecord) (queryVector : Embedding) (topK : Nat) :
    List Scored :=
  (jsSort compareScore
    (vectorStore.map (fun doc => Scored.mk doc (cosineSimilarity queryVector doc.embedding)))).take
    topK

/-- The outcome of one call of `getEmbedding`: the value `output.data` (which is
`undefined` when the embedder gave none), or a failure that is thrown. -/
inductive EmbedOutcome where
  | data (vector : Option Embedding)
  | raised (message : String)

/-- The method `RAGEngine.search(query, topK)`, given the outcome of
`getEmbedding(query)`. With an `undefined` query vector the first call of
`cosineSimilarity` throws a `TypeError`. -/
def search (vectorStore : List ChunkRecord) (queryEmbedding : EmbedOutcome) (topK : Nat) :
    Except String (List Scored) :=
  match queryEmbedding with
  | EmbedOutcome.raised message => Except.error message
  | EmbedOutcome.data none =>
    if vectorStore.isEmpty then Except.ok [] else Except.error "TypeError"
  | EmbedOutcome.data (some queryVector) => Except.ok (rank vectorStore queryVector topK)

/-- A file handed to `processFiles`, together with what the external
collaborators answer for it: the outcome of `extractTextFromPDF(file)` and the
outcome of `getEmbedding` for its `i`-th chunk. -/
structure File where
  type : String
  name : String
  extract : Except String JSString
  embed : Nat → EmbedOutcome

/-- An element of the array returned by `processFiles`. -/
structure IngestResult where
  name : String
  textLength : Nat
  chunkCount : Nat
  vectorCount : Nat
  deriving DecidableEq

/-- The state of a `RAGEngine` seen by `processFiles`: the vector store, and the
messages passed to `onProgress` so far. -/
structure RAGState where
  vectorStore : List ChunkRecord
  progress : List String

/-- The loop `for (const chunk of chunks)` of `processFiles`, from chunk number
`i` on. It returns the store together with the failure thrown by `getEmbedding`,
if any: the records pushed before a failure stay in the store. `newId n` is the
identifier `Date.now() + Math.random().toString(36)` drawn for the record pushed
onto a store of `n` records. -/
def embedChunks (newId : Nat → String) (file : File) :
    List JSString → Nat → List ChunkRecord → Option String × List ChunkRecord
  | [], _, store => (none, store)
  | chunk :: rest, i, store =>
    match file.embed i with
    | EmbedOutcome.raised message => (some message, store)
    | EmbedOutcome.data none => embedChunks newId file rest (i + 1) store
    | EmbedOutcome.data (some vector) =>
      embedChunks newId file rest (i + 1)
        (store ++ [ChunkRecord.mk (newId store.length) chunk vector file.name])

/-- The loop `for (const file of files)` of `processFiles`, with the array
`results` built so far. `chunkText(text, 500, 100)` runs with fuel `text.length`;
`none` would mean that it is still running. -/
def processFilesFrom (newId : Nat → String) :
    List File → RAGState → List IngestResult → Option (List IngestResult × RAGState)
  | [], st, results => some (results, st)
  | file :: rest, st, results =>
    if file.type ≠ "application/pdf" then processFilesFrom newId rest st results
    else
      let st1 : RAGState :=
        RAGState.mk st.vectorStore (st.progress ++ ["Reading " ++ file.name ++ "..."])
      match file.extract with
      | Except.error _ => processFilesFrom newId rest st1 results
      | Except.ok text =>
        let st2 : RAGState :=
          RAGState.mk st1.vectorStore (st1.progress ++ ["Chunking " ++ file.name ++ "..."])
        match chunkText text.length text 500 100 with
        | none => none
        | some chunks =>
          let st3 : RAGState :=
            RAGState.mk st2.vectorStore
              (st2.progress ++ ["Embedding " ++ toString chunks.length ++ " segments..."])
          match embedChunks newId file chunks 0 st3.vectorStore with
          | (some _, store) => processFilesFrom newId rest (RAGState.mk store st3.progress) results
          | (none, store) =>
            processFilesFrom newId rest (RAGState.mk store st3.progress)
              (results ++ [IngestResult.mk file.name text.length chunks.length store.length])

/-- The method `RAGEngine.processFiles(files, onProgress)`. -/
def processFiles (newId : Nat → String) (files : List File) (st : RAGState) :
    Option (List IngestResult × RAGState) :=
  processFilesFrom newId files st []

/-- The test "every chunk embedding succeeded" for the chunks `0 .. n - 1` of a file. -/
def embeddingsSucceed (file : File) (n : Nat) : Bool :=
  (List.range n).all (fun i =>
    match file.embed i with
    | EmbedOutcome.raised _ => false
    | EmbedOutcome.data _ => true)

/-- The entry that the specification expects for a file: name, text length and
chunk count when the file has the supported type and its extraction and every
chunk embedding succeeded, and no entry otherwise. -/
def expectedEntry (file : File) : Option (String × Nat × Nat) :=
  if file.type = "application/pdf" then
    match file.extract with
    | Except.error _ => none
    | Except.ok text =>
      let chunks := slidingWindows (cleanText text) 500 100
      if embeddingsSucceed file chunks.length then
        some (file.name, text.length, chunks.length)
      else none
  else none

/-- The position of a score on the extended rational line (`NaN`, which has no
position, is put with `-Infinity`). -/
def scoreKey : JSNum → WithBot (WithTop ℚ)
  | JSNum.nan => ⊥
  | JSNum.inf s => if s then ⊥ else ((⊤ : WithTop ℚ) : WithBot (WithTop ℚ))
  | JSNum.fin q => ((q : WithTop ℚ) : WithBot (WithTop ℚ))

/-- The order "descending score" on scored records. -/
def descending (a b : Scored) : Prop :=
  scoreKey b.score ≤ scoreKey a.score

instance descendingDecidable : DecidableRel descending :=
  fun a b => inferInstanceAs (Decidable (scoreKey b.score ≤ scoreKey a.score))

instance descendingTotal : IsTotal Scored descending :=
  ⟨fun a b => le_total (scoreKey b.score) (scoreKey a.score)⟩

instance descendingTrans : IsTrans Scored descending :=
  ⟨fun _ _ _ hab hbc => le_trans hbc hab⟩

/-- A supported file whose text, 401 letters, gives 2 chunks: the embedding of
the first chunk succeeds and the embedding of the second chunk fails. -/
def halfEmbeddedFile : File :=
  File.mk "application/pdf" "A.pdf" (Except.ok (List.replicate 401 97))
    (fun i =>
      if i = 0 then EmbedOutcome.data (some [JSNum.fin 1])
      else EmbedOutcome.raised "embedding failed")

end RAGEngine

/-- The method `String.prototype.includes`. -/
def jsIncludes (s sub : String) : Bool :=
  s.data.tails.any (fun t => sub.data.isPrefixOf t)

/-- The method `String.prototype.trim`, on a `String`. -/
def jsTrim (s : String) : String :=
  String.mk
    ((((s.data.dropWhile (fun c => RAGEngine.isWhitespace c.toNat)).reverse).dropWhile
      (fun c => RAGEngine.isWhitespace c.toNat)).reverse)

/-- The role of a chat message. -/
inductive Role where
  | system
  | user
  | assistant
  deriving DecidableEq

/-- A chat message `{ role, content }`: a turn of the history, or the system
message put in front of a request. -/
structure Message where
  role : Role
  content : String
  deriving DecidableEq

/-- The way the stream of one generation request ends: it completes, it ends
early because `interruptGenerate` was called, or it throws a failure. -/
inductive StreamEnd where
  | completed
  | stopped
  | raised (message : String)
  deriving DecidableEq

/-- What the inference engine answers to one call of `chat.completions.create`:
the `delta.content` of every chunk it delivers (`none` when the chunk has none)
and the way the stream ends after them. -/
structure Generation where
  chunks : List (Option String)
  ending : StreamEnd

/-- What one call of `CreateMLCEngine` does: the `text` of the progress reports
it sends, and the failure it throws, if any. -/
structure Construction where
  progress : List String
  failure : Option String

/-- The external inference capability: the outcome of the `n`-th call of
`CreateMLCEngine`, and the outcome of the `n`-th generation request, which may
depend on the messages and on the temperature. -/
structure Backend where
  construct : Nat → Construction
  generate : Nat → List Message → ℚ → Generation

/-- The argument `options` of `chat`: `systemPrompt` (the empty string stands for
an absent one, both are falsy) and `temperature` (`none` for `undefined`). -/
structure GenerationOptions where
  systemPrompt : String
  temperature : Option ℚ

/-- The state of an `LLMClient`: the fields `engine` (the number of the
construction that built it), `initPromise` (the number of the construction it
waits for) and `history`, and three records of what happened so far: the number
of calls of `CreateMLCEngine`, the message list of every generation request, and
the argument of every call of `onUpdate`. -/
structure LLMClient where
  engine : Option Nat
  initPromise : Option Nat
  history : List Message
  constructions : Nat
  requests : List (List Message)
  updates : List String

namespace LLMClient

/-- The default of `options.systemPrompt`. -/
def defaultSystemPrompt : String :=
  "You are a helpful academic research assistant. Use the provided context to answer questions accurately. Cite your sources if possible."

/-- A call `onUpdate(text)`, when a callback was passed (`if (onUpdate) ...`). -/
def notify (onUpdate : Bool) (st : LLMClient) (texts : List String) : LLMClient :=
  if onUpdate then
    LLMClient.mk st.engine st.initPromise st.history st.constructions st.requests
      (st.updates ++ texts)
  else st

/-- The body of the promise of `init`: await construction number `n`, whose
progress reports go through `onProgress` when there is one. On success
`this.engine` is set; on failure `this.initPromise` is reset and the failure is
thrown. -/
def settle (be : Backend) (st : LLMClient) (n : Nat) (onProgress : Option (String → String))
    (onUpdate : Bool) : Option String × LLMClient :=
  let st1 :=
    match onProgress with
    | some wrap => notify onUpdate st ((be.construct n).progress.map wrap)
    | none => st
  match (be.construct n).failure with
  | none =>
    (none, LLMClient.mk (some n) st1.initPromise st1.history st1.constructions st1.requests
      st1.updates)
  | some message =>
    (some message, LLMClient.mk st1.engine none st1.history st1.constructions st1.requests
      st1.updates)

/-- The method `LLMClient.init(onProgress)`, awaited: it returns the failure
thrown, if any. With an engine it returns at once; with a pending `initPromise` it
awaits that one; otherwise it starts a new construction. -/
def init (be : Backend) (st : LLMClient) (onProgress : Option (String → String))
    (onUpdate : Bool) : Option String × LLMClient :=
  if st.engine.isSome then (none, st)
  else
    match st.initPromise with
    | some n => settle be st n none onUpdate
    | none =>
      settle be
        (LLMClient.mk st.engine (some st.constructions) st.history (st.constructions + 1)
          st.requests st.updates)
        st.constructions onProgress onUpdate

/-- The progress callback that `chat` hands to `init`. -/
def reloadText (text : String) : String :=
  "[System: Reloading model... " ++ text ++ "]"

/-- The constant `finalUserContent` of `chat`: the user message, wrapped in the
context template when `context` is not empty. -/
def composeUserContent (userMessage context : String) : String :=
  if context = "" then userMessage
  else
    jsTrim ("\nHere is some relevant context from the provided documents:\n" ++ context ++
      "\n\nBased on this context, please answer the following question:\n" ++ userMessage ++
      "\n            ")

/-- The loop `for await (const chunk of chunks)` of `chat`, over the chunks that
the stream delivers: it returns `fullResponse` and the arguments of the calls of
`onUpdate`. -/
def streamLoop : List (Option String) → String → List String → String × List String
  | [], fullResponse, partials => (fullResponse, partials)
  | chunk :: rest, fullResponse, partials =>
    streamLoop rest (fullResponse ++ chunk.getD "")
      (partials ++ [fullResponse ++ chunk.getD ""])

/-- The message shown by `chat` before it rebuilds the engine. -/
def recoveryNotice : String :=
  "\n\n**[System: GPU Context lost. Rebooting model, please wait...]**"

/-- The method `LLMClient.chat(userMessage, context, options, onUpdate)`. The
fuel bounds the depth of the recursive call made by the recovery branch; `none`
means that the call has not returned within that depth. The result is the text
returned, or the message of the failure thrown. -/
def chat (be : Backend) :
    Nat → LLMClient → String → String → GenerationOptions → Bool →
      Option (Except String String × LLMClient)
  | 0, _, _, _, _, _ => none
  | fuel + 1, st, userMessage, context, options, onUpdate =>
    match (if st.engine.isNone then init be st (some reloadText) onUpdate else (none, st)) with
    | (some message, st1) => some (Except.error message, st1)
    | (none, st1) =>
      let systemPrompt :=
        if options.systemPrompt = "" then defaultSystemPrompt else options.systemPrompt
      let temperature := options.temperature.getD (7 / 10)
      let history := st1.history ++ [Message.mk Role.user (composeUserContent userMessage context)]
      let messages := Message.mk Role.system systemPrompt :: history
      let generation := be.generate st1.requests.length messages temperature
      let streamed := streamLoop generation.chunks "" []
      let st2 :=
        notify onUpdate
          (LLMClient.mk st1.engine st1.initPromise history st1.constructions
            (st1.requests ++ [messages]) st1.updates)
          streamed.2
      match generation.ending with
      | StreamEnd.raised message =>
        if jsIncludes message "disposed" then
          let st3 := notify onUpdate st2 [recoveryNotice]
          match init be
              (LLMClient.mk none none st3.history st3.constructions st3.requests st3.updates)
              none onUpdate with
          | (some failure, st4) => some (Except.error failure, st4)
          | (none, st4) => chat be fuel st4 userMessage context options onUpdate
        else some (Except.error message, st2)
      | _ =>
        some (Except.ok streamed.1,
          LLMClient.mk st2.engine st2.initPromise
            (st2.history ++ [Message.mk Role.assistant streamed.1]) st2.constructions
            st2.requests st2.updates)

/-- The message list of the generation request that `chat` issues from the state
`st`: the system message followed by the history with the new user turn. -/
def requestMessages (st : LLMClient) (userMessage context : String)
    (options : GenerationOptions) : List Message :=
  Message.mk Role.system
      (if options.systemPrompt = "" then defaultSystemPrompt else options.systemPrompt) ::
    (st.history ++ [Message.mk Role.user (composeUserContent userMessage context)])

/-- What the backend answers to the generation request that `chat` issues from
the state `st`. -/
def answer (be : Backend) (st : LLMClient) (userMessage context : String)
    (options : GenerationOptions) : Generation :=
  be.generate st.requests.length (requestMessages st userMessage context options)
    (options.temperature.getD (7 / 10))

/-- The delta sequence `d1 .. dn` of a stream: for every chunk the text
`chunk.choices[0]?.delta?.content || ""`. -/
def deltasOf (chunks : List (Option String)) : List String :=
  chunks.map (fun chunk => chunk.getD "")

/-- The partial texts of the specification for the deltas `d1 .. dn`: for
`i = 1 .. n` the concatenation `d1 .. di`. -/
def expectedPartials (deltas : List String) : List String :=
  (List.range deltas.length).map (fun i => String.join (deltas.take (i + 1)))

/-! Example backends and clients. -/

/-- A backend whose stream delivers `Hel`, a chunk without content and `lo`, and
then completes. -/
def streamsHello : Backend :=
  Backend.mk (fun _ => Construction.mk [] none)
    (fun _ _ _ => Generation.mk [some "Hel", none, some "lo"] StreamEnd.completed)

/-- A client whose engine was built by construction 0 and whose history is empty. -/
def readyClient : LLMClient :=
  LLMClient.mk (some 0) (some 0) [] 1 [] []

/-- A backend whose first two generation requests fail with a disposed-backend
error and whose third request answers `ok`. -/
def twiceDisposed : Backend :=
  Backend.mk (fun _ => Construction.mk [] none)
    (fun n _ _ =>
      if n < 2 then Generation.mk [] (StreamEnd.raised "Model has already been disposed")
      else Generation.mk [some "ok"] StreamEnd.completed)

/-- A backend whose first generation request fails with a disposed-backend error
and whose later requests answer `ok`. -/
def onceDisposed : Backend :=
  Backend.mk (fun _ => Construction.mk [] none)
    (fun n _ _ =>
      if n < 1 then Generation.mk [] (StreamEnd.raised "Model has already been disposed")
      else Generation.mk [some "ok"] StreamEnd.completed)

/-- A backend of which every generation request fails with a disposed-backend
error, while every construction succeeds. -/
def alwaysDisposed : Backend :=
  Backend.mk (fun _ => Construction.mk [] none)
    (fun _ _ _ => Generation.mk [] (StreamEnd.raised "Model has already been disposed"))

/-- A backend whose stream delivers `Hel` and then ends early, because
`interruptGenerate` was called. -/
def stoppedEarly : Backend :=
  Backend.mk (fun _ => Construction.mk [] none)
    (fun _ _ _ => Generation.mk [some "Hel"] StreamEnd.stopped)

/-- A backend whose stream delivers `Hel` and then throws an interruption failure. -/
def raisesInterrupted : Backend :=
  Backend.mk (fun _ => Construction.mk [] none)
    (fun _ _ _ => Generation.mk [some "Hel"] (StreamEnd.raised "Generation interrupted"))

end LLMClient

namespace App

/-- The test of `onMessageSend` that tells an interrupted generation from an
error: `e.message.includes("interrupted") || e.message.includes("aborted")`. -/
def isStoppedByUser (message : String) : Bool :=
  jsIncludes message "interrupted" || jsIncludes message "aborted"

/-- The `try`/`catch` around `this.llm.chat(...)` in `onMessageSend`: the text
put into the answer bubble and the label of the model status, for a send that
returned `response` or threw a failure with the given message. -/
def present (outcome : Except String String) : String × String :=
  match outcome with
  | Except.ok response => (response, "Ready")
  | Except.error message =>
    if isStoppedByUser message then ("**[Generation Stopped by User]**", "Stopped")
    else ("**Error**: " ++ message, "Error")

end App

/-! ## Theorems -/

namespace RAGEngine

/-! ### Chunker -/

theorem clampIndex_natCast (len a : Nat) : clampIndex len (a : Int) = min a len := by
  unfold clampIndex
  have h : ¬ ((a : Int) < 0) := by omega
  rw [if_neg h]
  omega

theorem jsSlice_natCast (s : JSString) (a b : Nat) :
    jsSlice s (a : Int) (b : Int) =
      (s.drop (min a s.length)).take (min b s.length - min a s.length) := by
  simp only [jsSlice, clampIndex_natCast]

/-- The window emitted by the loop at `start = i * (S - O)`. -/
theorem jsSlice_window (N : JSString) (S O i : Nat) (h : i * (S - O) < N.length) :
    jsSlice N ((i * (S - O) : Nat) : Int) (((i * (S - O) : Nat) : Int) + (S : Int)) =
      (N.drop (i * (S - O))).take (min (i * (S - O) + S) N.length - i * (S - O)) := by
  have e : (((i * (S - O) : Nat) : Int) + (S : Int)) = ((i * (S - O) + S : Nat) : Int) := by
    push_cast; rfl
  rw [e, jsSlice_natCast, Nat.min_eq_left (Nat.le_of_lt h)]

theorem filter_range_from_eq_nil (L step i n : Nat) (h : L ≤ i * step) :
    (List.range' i n).filter (fun j => decide (j * step < L)) = [] := by
  rw [List.filter_eq_nil_iff]
  intro j hj
  have hij : i ≤ j := (List.mem_range'_1.mp hj).1
  have : i * step ≤ j * step := Nat.mul_le_mul_right step hij
  simp only [decide_eq_true_eq, not_lt]
  omega

/-- The loop started at window `i` appends the remaining windows of the
specification, as soon as the fuel covers the distance to the end of the text. -/
theorem chunkLoop_windows (N : JSString) (S O : Nat) (hOS : O < S) :
    ∀ (fuel i : Nat) (chunks : List JSString), N.length ≤ i * (S - O) + fuel →
      chunkLoop N (S : Int) (O : Int) fuel ((i * (S - O) : Nat) : Int) chunks =
        some (chunks ++
          (((List.range' i (N.length - i)).filter (fun j => decide (j * (S - O) < N.length))).map
            (fun j => (N.drop (j * (S - O))).take
              (min (j * (S - O) + S) N.length - j * (S - O))))) := by
  have hstep : 0 < S - O := Nat.sub_pos_of_lt hOS
  intro fuel
  induction fuel with
  | zero =>
    intro i chunks h
    have hL : N.length ≤ i * (S - O) := by omega
    have hc : ¬ (((i * (S - O) : Nat) : Int) < (N.length : Int)) := by omega
    simp only [chunkLoop, if_neg hc]
    rw [filter_range_from_eq_nil N.length (S - O) i _ hL]
    simp
  | succ fuel ih =>
    intro i chunks h
    by_cases hlt : i * (S - O) < N.length
    · have hc : (((i * (S - O) : Nat) : Int) < (N.length : Int)) := by omega
      have hi : i < N.length := lt_of_le_of_lt (Nat.le_mul_of_pos_right i hstep) hlt
      have hnext : (((i * (S - O) : Nat) : Int) + ((S : Int) - (O : Int))) =
          (((i + 1) * (S - O) : Nat) : Int) := by
        rw [Nat.succ_mul]
        push_cast [Nat.cast_sub (Nat.le_of_lt hOS)]
        ring
      have hfuel : N.length ≤ (i + 1) * (S - O) + fuel := by
        rw [Nat.succ_mul]; omega
      simp only [chunkLoop, if_pos hc]
      rw [hnext, ih (i + 1) _ hfuel, jsSlice_window N S O i hlt]
      have hr : List.range' i (N.length - i) = i :: List.range' (i + 1) (N.length - (i + 1)) := by
        have : N.length - i = (N.length - (i + 1)) + 1 := by omega
        rw [this, List.range'_succ]
      rw [hr, List.filter_cons_of_pos (by simpa using hlt)]
      simp
    · have hL : N.length ≤ i * (S - O) := by omega
      have hc : ¬ (((i * (S - O) : Nat) : Int) < (N.length : Int)) := by omega
      simp only [chunkLoop, if_neg hc]
      rw [filter_range_from_eq_nil N.length (S - O) i _ hL]
      simp

theorem filter_range_lt (m n : Nat) (h : n ≤ m) :
    (List.range m).filter (fun i => decide (i < n)) = List.range n := by
  induction m with
  | zero =>
    have : n = 0 := by omega
    subst this; rfl
  | succ m ih =>
    rw [List.range_succ, List.filter_append]
    by_cases hn : n ≤ m
    · rw [ih hn]
      have : ¬ (m < n) := by omega
      simp [this]
    · have hnm : n = m + 1 := by omega
      subst hnm
      have hall : (List.range m).filter (fun i => decide (i < m + 1)) = List.range m := by
        rw [List.filter_eq_self]
        intro a ha
        have := List.mem_range.mp ha
        simp only [decide_eq_true_eq]
        omega
      rw [hall, List.range_succ]
      simp

theorem window_index_iff (L step i : Nat) (hstep : 0 < step) :
    i * step < L ↔ i < (L + step - 1) / step := by
  rw [Nat.lt_iff_add_one_le (m := i), Nat.le_div_iff_mul_le hstep, Nat.succ_mul]
  omega

/-- The window indices of the specification are `0, ..., ceil(L / step) - 1`. -/
theorem filter_range_windows (L step : Nat) (hstep : 0 < step) :
    (List.range L).filter (fun i => decide (i * step < L)) =
      List.range ((L + step - 1) / step) := by
  have hle : (L + step - 1) / step ≤ L := by
    rw [Nat.div_le_iff_le_mul_add_pred hstep]
    have : L ≤ step * L := Nat.le_mul_of_pos_left L hstep
    omega
  rw [← filter_range_lt L _ hle]
  apply List.filter_congr
  intro i _
  simp only [decide_eq_decide]
  exact window_index_iff L step i hstep

theorem chunkLoop_eq_slidingWindows (N : JSString) (S O : Nat) (hOS : O < S) (fuel : Nat)
    (hfuel : N.length ≤ fuel) :
    chunkLoop N (S : Int) (O : Int) fuel 0 [] = some (slidingWindows N S O) := by
  have h := chunkLoop_windows N S O hOS fuel 0 [] (by omega)
  simp only [Nat.zero_mul, Nat.cast_zero, Nat.sub_zero, List.nil_append] at h
  rw [h, slidingWindows, List.range_eq_range']

theorem collapseFrom_whitespace (text : JSString) (h : ∀ c ∈ text, isWhitespace c = true) :
    collapseFrom true text = [] := by
  induction text with
  | nil => rfl
  | cons c cs ih =>
    have hc : isWhitespace c = true := h c (List.mem_cons_self _ _)
    simp only [collapseFrom, hc, if_true]
    exact ih (fun d hd => h d (List.mem_cons_of_mem _ hd))

/-- A text made of whitespace only has an empty normal form. -/
theorem cleanText_whitespace (text : JSString) (h : ∀ c ∈ text, isWhitespace c = true) :
    cleanText text = [] := by
  cases text with
  | nil => rfl
  | cons c cs =>
    have hc : isWhitespace c = true := h c (List.mem_cons_self _ _)
    have hcs := collapseFrom_whitespace cs (fun d hd => h d (List.mem_cons_of_mem _ hd))
    simp only [cleanText, collapseWhitespace, collapseFrom, hc, if_true, hcs]
    decide

theorem chunkText_of_clean_nil (fuel : Nat) (text : JSString) (S O : Int)
    (h : cleanText text = []) : chunkText fuel text S O = some [] := by
  unfold chunkText
  split
  · rfl
  · rw [h]; cases fuel <;> simp [chunkLoop]

/-- A character outside the basic plane takes two code units, as in JavaScript
(`"a𝒳".length` is 3). -/
theorem utf16_surrogate_pair : utf16 "a𝒳" = [97, 0xD835, 0xDCB3] := by
  decide

/-! #### Normalization -/

theorem trimEnd_cons (d : CodeUnit) (x : JSString) :
    trimEnd (d :: x) =
      if trimEnd x = [] then (if isWhitespace d then [] else [d]) else d :: trimEnd x := by
  unfold trimEnd
  rw [List.reverse_cons, List.dropWhile_append]
  by_cases h : x.reverse.dropWhile isWhitespace = []
  · simp only [h, List.isEmpty_nil, if_true, List.reverse_nil]
    by_cases hd : isWhitespace d = true
    · simp [List.dropWhile, hd]
    · simp [List.dropWhile, hd]
  · have h2 : (x.reverse.dropWhile isWhitespace).isEmpty = false := by
      cases hx : x.reverse.dropWhile isWhitespace with
      | nil => exact absurd hx h
      | cons a l => rfl
    have h3 : (x.reverse.dropWhile isWhitespace).reverse ≠ [] := by
      simpa using h
    simp only [h2, Bool.false_eq_true, if_false, List.reverse_append, List.reverse_cons,
      List.reverse_nil, List.nil_append, List.singleton_append, if_neg h3]

theorem collapseFrom_true_head (cs : JSString) :
    (collapseFrom true cs).dropWhile isWhitespace = collapseFrom true cs := by
  induction cs with
  | nil => rfl
  | cons c cs ih =>
    by_cases hc : isWhitespace c = true
    · simp only [collapseFrom, hc, if_true]
      exact ih
    · simp only [collapseFrom, hc, Bool.false_eq_true, if_false, List.dropWhile_cons]

theorem dropWhile_collapseFrom_false (text : JSString) :
    (collapseFrom false text).dropWhile isWhitespace = collapseFrom true text := by
  cases text with
  | nil => rfl
  | cons c cs =>
    by_cases hc : isWhitespace c = true
    · have h32 : isWhitespace 32 = true := by decide
      simp only [collapseFrom, hc, if_true, Bool.false_eq_true, if_false, List.dropWhile_cons, h32]
      exact collapseFrom_true_head cs
    · simp only [collapseFrom, hc, Bool.false_eq_true, if_false, List.dropWhile_cons]

theorem cleanText_eq_trimEnd (text : JSString) :
    cleanText text = trimEnd (collapseFrom true text) := by
  unfold cleanText trim collapseWhitespace
  rw [dropWhile_collapseFrom_false]
  rfl

theorem wordsOf_nil : wordsOf [] = [] := by
  simp [wordsOf, List.splitOnP_nil]

theorem wordsOf_cons_whitespace (c : CodeUnit) (cs : JSString) (hc : isWhitespace c = true) :
    wordsOf (c :: cs) = wordsOf cs := by
  simp [wordsOf, List.splitOnP_cons, hc]

theorem wordsOf_singleton (d : CodeUnit) (hd : isWhitespace d = false) :
    wordsOf [d] = [[d]] := by
  simp [wordsOf, List.splitOnP_cons, List.splitOnP_nil, hd]

theorem wordsOf_cons_cons_whitespace (d e : CodeUnit) (cs : JSString)
    (hd : isWhitespace d = false) (he : isWhitespace e = true) :
    wordsOf (d :: e :: cs) = [d] :: wordsOf (e :: cs) := by
  simp [wordsOf, List.splitOnP_cons, hd, he]

theorem wordsOf_cons_cons_word (d e : CodeUnit) (cs : JSString)
    (hd : isWhitespace d = false) (he : isWhitespace e = false) :
    ∃ w rest, wordsOf (e :: cs) = (e :: w) :: rest ∧
      wordsOf (d :: e :: cs) = (d :: e :: w) :: rest := by
  cases hs : cs.splitOnP isWhitespace with
  | nil => exact absurd hs (List.splitOnP_ne_nil _ _)
  | cons h t =>
    refine ⟨h, t.filter (fun w => !w.isEmpty), ?_, ?_⟩
    · simp [wordsOf, List.splitOnP_cons, he, hs]
    · simp [wordsOf, List.splitOnP_cons, hd, he, hs]

theorem wordsOf_ne_nil_of_mem (text w : JSString) (h : w ∈ wordsOf text) : w ≠ [] := by
  unfold wordsOf at h
  have := (List.mem_filter.mp h).2
  intro hw
  subst hw
  simp at this

theorem intercalate_cons_head (sep : JSString) (a : CodeUnit) (w : JSString)
    (rest : List JSString) :
    List.intercalate sep ((a :: w) :: rest) = a :: List.intercalate sep (w :: rest) := by
  cases rest <;> simp [List.intercalate]

theorem intercalate_singleton_cons (sep : JSString) (a : CodeUnit) (w : JSString)
    (rest : List JSString) :
    List.intercalate sep ([a] :: w :: rest) = a :: (sep ++ List.intercalate sep (w :: rest)) := by
  simp [List.intercalate]

theorem normalizedText_eq_nil_iff (text : JSString) :
    normalizedText text = [] ↔ wordsOf text = [] := by
  unfold normalizedText
  constructor
  · intro h
    cases hw : wordsOf text with
    | nil => rfl
    | cons w rest =>
      have hne : w ≠ [] := wordsOf_ne_nil_of_mem text w (by rw [hw]; exact List.mem_cons_self _ _)
      cases w with
      | nil => exact absurd rfl hne
      | cons a w =>
        rw [hw, intercalate_cons_head] at h
        exact absurd h (List.cons_ne_nil _ _)
  · intro h
    rw [h]
    rfl

/-- The collapsed text, trimmed at its end, is the text of the words separated
by single spaces. -/
theorem trimEnd_collapseFrom_true (cs : JSString) :
    trimEnd (collapseFrom true cs) = normalizedText cs := by
  induction cs with
  | nil => simp [collapseFrom, trimEnd, normalizedText, wordsOf_nil, List.intercalate]
  | cons d cs ih =>
    by_cases hd : isWhitespace d = true
    · simp only [collapseFrom, hd, if_true]
      rw [ih]
      unfold normalizedText
      rw [wordsOf_cons_whitespace d cs hd]
    · have hd2 : isWhitespace d = false := by simpa using hd
      have hstep : collapseFrom true (d :: cs) = d :: collapseFrom false cs := by
        simp only [collapseFrom, hd2, Bool.false_eq_true, if_false]
      rw [hstep]
      cases cs with
      | nil =>
        simp [collapseFrom, trimEnd_cons, trimEnd, hd2, normalizedText, wordsOf_singleton d hd2,
          List.intercalate]
      | cons e cs2 =>
        by_cases he : isWhitespace e = true
        · have hfalse : collapseFrom false (e :: cs2) = 32 :: collapseFrom true cs2 := by
            simp only [collapseFrom, he, if_true, Bool.false_eq_true, if_false]
          have htrue : collapseFrom true (e :: cs2) = collapseFrom true cs2 := by
            simp only [collapseFrom, he, if_true]
          rw [htrue] at ih
          have h32 : isWhitespace 32 = true := by decide
          rw [hfalse, trimEnd_cons, trimEnd_cons, ih]
          unfold normalizedText
          rw [wordsOf_cons_cons_whitespace d e cs2 hd2 he]
          by_cases hw : wordsOf (e :: cs2) = []
          · have hn : List.intercalate [32] (wordsOf (e :: cs2)) = [] := by rw [hw]; rfl
            simp [hn, h32, hd2, hw, List.intercalate]
          · have hn : List.intercalate [32] (wordsOf (e :: cs2)) ≠ [] := by
              intro h
              exact hw ((normalizedText_eq_nil_iff (e :: cs2)).mp h)
            obtain ⟨w, rest, hwr⟩ := List.exists_cons_of_ne_nil hw
            rw [if_neg hn, if_neg (List.cons_ne_nil _ _), hwr, intercalate_singleton_cons]
            rfl
        · have he2 : isWhitespace e = false := by simpa using he
          have hfalse : collapseFrom false (e :: cs2) = collapseFrom true (e :: cs2) := by
            simp only [collapseFrom, he2, Bool.false_eq_true, if_false]
          obtain ⟨w, rest, h1, h2⟩ := wordsOf_cons_cons_word d e cs2 hd2 he2
          have hne : normalizedText (e :: cs2) ≠ [] := by
            intro h
            have := (normalizedText_eq_nil_iff (e :: cs2)).mp h
            rw [h1] at this
            exact absurd this (List.cons_ne_nil _ _)
          rw [hfalse, trimEnd_cons, ih, if_neg hne]
          unfold normalizedText
          rw [h1, h2, intercalate_cons_head, intercalate_cons_head, intercalate_cons_head]

/-- The normalization of the code is the normalization of the specification. -/
theorem cleanText_eq_normalizedText (text : JSString) :
    cleanText text = normalizedText text := by
  rw [cleanText_eq_trimEnd, trimEnd_collapseFrom_true]

/-! #### Windows -/

theorem chunkText_eq_slidingWindows (text : JSString) (fuel : Nat)
    (hfuel : (cleanText text).length ≤ fuel) (S O : Nat) (hOS : O < S) :
    chunkText fuel text (S : Int) (O : Int) = some (slidingWindows (cleanText text) S O) := by
  unfold chunkText
  split
  · next h =>
    have : text = [] := by simpa using h
    subst this
    rfl
  · exact chunkLoop_eq_slidingWindows _ S O hOS fuel hfuel

/-- C3. With `N` the whitespace-normalized text of the specification (the words
of the text separated by single spaces), size `S > 0` and overlap `O < S`,
`chunkText` returns (given fuel for `len N` iterations) exactly the windows
`N[i*(S-O) : min(i*(S-O)+S, len N)]`, `i = 0, 1, ...` while `i*(S-O) < len N`, in
that order; a whitespace-only (or empty) text gives the empty list; and a
normalized text of 1200 code units with `S = 500`, `O = 100` gives the three
chunks `N[0:500]`, `N[400:900]`, `N[800:1200]`. -/
theorem chunkText_sliding_window (text : JSString) (fuel : Nat)
    (hfuel : (normalizedText text).length ≤ fuel) :
    (∀ S O : Nat, 0 < S → O < S →
      chunkText fuel text (S : Int) (O : Int) =
        some (slidingWindows (normalizedText text) S O)) ∧
    ((∀ c ∈ text, isWhitespace c = true) → ∀ S O : Nat, 0 < S → O < S →
      chunkText fuel text (S : Int) (O : Int) = some []) ∧
    ((normalizedText text).length = 1200 →
      chunkText fuel text 500 100 =
        some [((normalizedText text).drop 0).take (500 - 0),
              ((normalizedText text).drop 400).take (900 - 400),
              ((normalizedText text).drop 800).take (1200 - 800)]) := by
  have hclean : cleanText text = normalizedText text := cleanText_eq_normalizedText text
  have main : ∀ S O : Nat, 0 < S → O < S →
      chunkText fuel text (S : Int) (O : Int) =
        some (slidingWindows (normalizedText text) S O) := by
    intro S O _ hOS
    rw [← hclean]
    exact chunkText_eq_slidingWindows text fuel (by rw [hclean]; exact hfuel) S O hOS
  refine ⟨main, ?_, ?_⟩
  · intro hws S O _ _
    exact chunkText_of_clean_nil fuel text _ _ (cleanText_whitespace text hws)
  · intro hlen
    have h := main 500 100 (by decide) (by decide)
    simp only [Nat.cast_ofNat] at h
    rw [h, slidingWindows, hlen, filter_range_windows 1200 (500 - 100) (by decide)]
    rfl

theorem chunkText_sliding_window_witness :
    (normalizedText (utf16 "  ab \t\n cd   e ")).length ≤ 10 ∧
    normalizedText (utf16 "  ab \t\n cd   e ") = utf16 "ab cd e" ∧
    slidingWindows (utf16 "ab cd e") 3 1 =
      [utf16 "ab ", utf16 " cd", utf16 "d e", utf16 "e"] ∧
    chunkText 10 (utf16 "  ab \t\n cd   e ") ((3 : Nat) : Int) ((1 : Nat) : Int) =
      some [utf16 "ab ", utf16 " cd", utf16 "d e", utf16 "e"] ∧
    chunkText 10 (utf16 "  ab \t\n cd   e ") ((3 : Nat) : Int) ((1 : Nat) : Int) =
      some (slidingWindows (normalizedText (utf16 "  ab \t\n cd   e ")) 3 1) :=
  ⟨by decide, by decide, by decide, by decide,
    (chunkText_sliding_window (utf16 "  ab \t\n cd   e ") 10 (by decide)).1 3 1
      (by decide) (by decide)⟩

/-- While `overlap >= size` the window start never moves forward, so on a
non-empty normalized text the loop is still running after any number of
iterations. -/
theorem chunkLoop_no_progress (N : JSString) (S O : Int) (hOS : S ≤ O) (hN : N ≠ []) :
    ∀ (fuel : Nat) (start : Int) (chunks : List JSString), start ≤ 0 →
      chunkLoop N S O fuel start chunks = none := by
  have hpos : 0 < N.length := List.length_pos.mpr hN
  intro fuel
  induction fuel with
  | zero =>
    intro start chunks h
    have hc : start < (N.length : Int) := by omega
    simp only [chunkLoop, if_pos hc]
  | succ fuel ih =>
    intro start chunks h
    have hc : start < (N.length : Int) := by omega
    simp only [chunkLoop, if_pos hc]
    exact ih _ _ (by omega)

theorem chunkText_no_progress (text : JSString) (S O : Int) (hOS : S ≤ O)
    (hN : cleanText text ≠ []) (fuel : Nat) : chunkText fuel text S O = none := by
  unfold chunkText
  split
  · next h =>
    have : text = [] := by simpa using h
    subst this
    exact absurd rfl hN
  · exact chunkLoop_no_progress _ S O hOS hN fuel 0 [] (le_refl 0)

/-- C2, counterexample. With `size = 5 > 0` and `overlap = 5 >= size`, the text
`" "` is not rejected: `chunkText` returns the empty chunk list. -/
theorem chunkText_bad_parameters_not_rejected :
    chunkText 0 (utf16 " ") 5 5 = some [] := by
  decide

/-- C2, amended. `chunkText` has no parameter check: whatever `size` and
`overlap` are (also with `size > 0` and `overlap >= size`), a text with an empty
normal form is answered with the empty chunk list, without any iteration. -/
theorem chunkText_no_parameter_check (fuel : Nat) (text : JSString) (S O : Int)
    (_hS : 0 < S) (_hOS : S ≤ O) (h : cleanText text = []) :
    chunkText fuel text S O = some [] :=
  chunkText_of_clean_nil fuel text S O h

theorem chunkText_no_parameter_check_witness :
    (0 : Int) < 5 ∧ (5 : Int) ≤ 7 ∧ cleanText (utf16 " \n ") = [] ∧
      chunkText 0 (utf16 " \n ") 5 7 = some [] :=
  ⟨by decide, by decide, by decide,
    chunkText_no_parameter_check 0 (utf16 " \n ") 5 7 (by decide) (by decide) (by decide)⟩

theorem length_slidingWindows (N : JSString) (S O : Nat) (hOS : O < S) :
    (slidingWindows N S O).length = (N.length + (S - O) - 1) / (S - O) := by
  rw [slidingWindows, List.length_map, filter_range_windows N.length (S - O)
    (Nat.sub_pos_of_lt hOS), List.length_range]

/-- The rounded-up quotient `(L + step - 1) / step` is `ceil (L / step)`. -/
theorem ceil_div_eq (L step : Nat) (hstep : 0 < step) :
    Int.ceil ((L : ℚ) / (step : ℚ)) = (((L + step - 1) / step : Nat) : Int) := by
  have hq : (0 : ℚ) < (step : ℚ) := by exact_mod_cast hstep
  have h1 : (L + step - 1) / step * step ≤ L + step - 1 := Nat.div_mul_le_self _ _
  have h2 : L + step - 1 < ((L + step - 1) / step + 1) * step := by
    rw [Nat.mul_comm]
    exact Nat.lt_mul_div_succ _ hstep
  rw [Nat.succ_mul] at h2
  have h0 : L = 0 → (L + step - 1) / step = 0 := by
    intro hL
    subst hL
    exact Nat.div_eq_of_lt (by omega)
  generalize (L + step - 1) / step = c at h0 h1 h2 ⊢
  rw [Int.ceil_eq_iff]
  constructor
  · rw [lt_div_iff₀ hq]
    by_cases hL : L = 0
    · rw [h0 hL, hL]
      simp only [Nat.cast_zero, Int.cast_zero, zero_sub]
      linarith
    · have h3 : c * step < L + step := by omega
      have h4 : ((c * step : Nat) : ℚ) < ((L + step : Nat) : ℚ) := by
        exact_mod_cast h3
      push_cast at h4 ⊢
      linarith
  · rw [div_le_iff₀ hq]
    have h3 : L ≤ c * step := by omega
    have h4 : ((L : Nat) : ℚ) ≤ ((c * step : Nat) : ℚ) := by
      exact_mod_cast h3
    push_cast at h4 ⊢
    linarith

/-- C9, counterexample. The normalized text `"abcd"` (`L = 4`) with `S = 3`,
`O = 2` gives 4 chunks, while `ceil((L - O) / (S - O)) = 2`: the two numbers
differ by 2, which is more than 1. -/
theorem chunk_count_counterexample :
    cleanText (utf16 "abcd") = (utf16 "abcd") ∧
    chunkText 4 (utf16 "abcd") 3 2 =
      some [(utf16 "abc"), (utf16 "bcd"), (utf16 "cd"), (utf16 "d")] ∧
    specChunkCount 4 3 2 = 2 ∧
    ¬ (|(([(utf16 "abc"), (utf16 "bcd"), (utf16 "cd"), (utf16 "d")].length : Nat) : Int) -
        specChunkCount 4 3 2| ≤ 1) := by
  have h : specChunkCount 4 3 2 = 2 := by
    unfold specChunkCount
    rw [Int.ceil_eq_iff]
    norm_num
  refine ⟨by decide, by decide, h, ?_⟩
  rw [h]
  decide

/-- C9, amended. For `0 <= O < S` and `L` the length of the normalized text,
`chunkText` returns exactly `ceil(L / (S - O))` chunks; when moreover
`2 * O <= S` (as for the defaults 500 and 100), this number differs from
`ceil((L - O) / (S - O))` by at most 1. -/
theorem chunk_count (text : JSString) (S O : Nat) (hOS : O < S) (fuel : Nat)
    (hfuel : (cleanText text).length ≤ fuel) :
    ∃ chunks, chunkText fuel text (S : Int) (O : Int) = some chunks ∧
      (chunks.length : Int) =
        Int.ceil (((cleanText text).length : ℚ) / (((S : Int) - (O : Int) : Int) : ℚ)) ∧
      (2 * O ≤ S →
        |(chunks.length : Int) - specChunkCount ((cleanText text).length : Int) S O| ≤ 1) := by
  have hstep : 0 < S - O := Nat.sub_pos_of_lt hOS
  have hq : (0 : ℚ) < ((S - O : Nat) : ℚ) := by exact_mod_cast hstep
  have hcast : ((((S : Int) - (O : Int) : Int)) : ℚ) = ((S - O : Nat) : ℚ) := by
    push_cast [Nat.cast_sub (Nat.le_of_lt hOS)]
    rfl
  refine ⟨slidingWindows (cleanText text) S O,
    chunkText_eq_slidingWindows text fuel hfuel S O hOS, ?_, ?_⟩
  · rw [length_slidingWindows _ S O hOS, hcast, ceil_div_eq _ _ hstep]
  · intro h2
    have hlen : ((slidingWindows (cleanText text) S O).length : Int) =
        Int.ceil (((cleanText text).length : ℚ) / ((S - O : Nat) : ℚ)) := by
      rw [length_slidingWindows _ S O hOS, ceil_div_eq _ _ hstep]
    have hOle : ((O : Nat) : ℚ) ≤ ((S - O : Nat) : ℚ) := by
      have : O ≤ S - O := by omega
      exact_mod_cast this
    have hO0 : (0 : ℚ) ≤ ((O : Nat) : ℚ) := Nat.cast_nonneg O
    unfold specChunkCount
    rw [hlen, hcast]
    set x : ℚ := ((cleanText text).length : ℚ) / ((S - O : Nat) : ℚ) with hx
    have hy : ((((cleanText text).length : Int) - (O : Int) : Int) : ℚ) / ((S - O : Nat) : ℚ) =
        x - (O : ℚ) / ((S - O : Nat) : ℚ) := by
      rw [hx]
      push_cast
      ring
    rw [hy]
    have hy0 : (0 : ℚ) ≤ (O : ℚ) / ((S - O : Nat) : ℚ) := div_nonneg hO0 (le_of_lt hq)
    have hy1 : (O : ℚ) / ((S - O : Nat) : ℚ) ≤ 1 := by
      rw [div_le_one hq]; exact hOle
    have hle : Int.ceil (x - (O : ℚ) / ((S - O : Nat) : ℚ)) ≤ Int.ceil x :=
      Int.ceil_mono (by linarith)
    have hge : Int.ceil x ≤ Int.ceil (x - (O : ℚ) / ((S - O : Nat) : ℚ)) + 1 := by
      rw [← Int.ceil_add_one]
      exact Int.ceil_mono (by linarith)
    rw [abs_le]
    constructor <;> omega

theorem chunk_count_witness :
    (100 : Nat) < 500 ∧ (cleanText (utf16 "ab  cd e")).length ≤ 10 ∧
    ∃ chunks, chunkText 10 (utf16 "ab  cd e") ((500 : Nat) : Int) ((100 : Nat) : Int) = some chunks ∧
      (chunks.length : Int) =
        Int.ceil (((cleanText (utf16 "ab  cd e")).length : ℚ) /
          ((((500 : Nat) : Int) - ((100 : Nat) : Int) : Int) : ℚ)) ∧
      (2 * 100 ≤ 500 →
        |(chunks.length : Int) -
          specChunkCount ((cleanText (utf16 "ab  cd e")).length : Int) (500 : Nat) (100 : Nat)| ≤ 1) :=
  ⟨by decide, by decide, chunk_count (utf16 "ab  cd e") 500 100 (by decide) 10 (by decide)⟩

end RAGEngine

/-! ### Cosine similarity -/

namespace JSNum

theorem zeroOrNaN_mul_left (x y : JSNum) (hx : ZeroOrNaN x) : ZeroOrNaN (mul x y) := by
  rcases hx with rfl | rfl
  · cases y with
    | nan => exact Or.inr rfl
    | inf s => exact Or.inr (by simp [mul])
    | fin q => exact Or.inl (by simp [mul])
  · exact Or.inr (by cases y <;> rfl)

theorem zeroOrNaN_mul_right (x y : JSNum) (hy : ZeroOrNaN y) : ZeroOrNaN (mul x y) := by
  rcases hy with rfl | rfl
  · cases x with
    | nan => exact Or.inr rfl
    | inf s => exact Or.inr (by simp [mul])
    | fin q => exact Or.inl (by simp [mul])
  · cases x <;> exact Or.inr rfl

theorem zeroOrNaN_add (x y : JSNum) (hx : ZeroOrNaN x) (hy : ZeroOrNaN y) :
    ZeroOrNaN (add x y) := by
  rcases hx with rfl | rfl <;> rcases hy with rfl | rfl
  · exact Or.inl (by simp [add])
  · exact Or.inr rfl
  · exact Or.inr rfl
  · exact Or.inr rfl

theorem sqrtRat_zero : sqrtRat 0 = 0 := by
  simp [sqrtRat]

theorem sqrtRat_one : sqrtRat 1 = 1 := by
  have h : Nat.sqrt (2 ^ 64 * 2 ^ 64) = 2 ^ 64 := Nat.sqrt_eq _
  have e : (1 : ℚ).num.toNat * (1 : ℚ).den * 2 ^ 128 = 2 ^ 64 * 2 ^ 64 := by
    simp
  unfold sqrtRat
  rw [e, h]
  simp

theorem sqrt_fin_zero : sqrt (fin 0) = fin 0 := by
  simp [sqrt, sqrtRat_zero]

theorem sqrt_fin_one : sqrt (fin 1) = fin 1 := by
  simp [sqrt, sqrtRat_one]

theorem zeroOrNaN_sqrt (x : JSNum) (hx : ZeroOrNaN x) : ZeroOrNaN (sqrt x) := by
  rcases hx with rfl | rfl
  · exact Or.inl sqrt_fin_zero
  · exact Or.inr rfl

theorem div_zeroOrNaN (x y : JSNum) (hx : ZeroOrNaN x) (hy : ZeroOrNaN y) : div x y = nan := by
  rcases hx with rfl | rfl <;> rcases hy with rfl | rfl <;> simp [div]

end JSNum

namespace RAGEngine
open JSNum

/-- One iteration of the loop of `cosineSimilarity`. -/
theorem cosineSums_foldl_invariant (vecA vecB : Embedding) (P Q R : JSNum → Prop)
    (hP : ∀ acc i, P acc → i < vecA.length →
      P (JSNum.add acc (JSNum.mul (elemAt vecA i) (elemAt vecB i))))
    (hQ : ∀ acc i, Q acc → i < vecA.length →
      Q (JSNum.add acc (JSNum.mul (elemAt vecA i) (elemAt vecA i))))
    (hR : ∀ acc i, R acc → i < vecA.length →
      R (JSNum.add acc (JSNum.mul (elemAt vecB i) (elemAt vecB i)))) :
    ∀ (l : List Nat) (acc : JSNum × JSNum × JSNum), (∀ i ∈ l, i < vecA.length) →
      P acc.1 → Q acc.2.1 → R acc.2.2 →
      P (l.foldl
          (fun acc i =>
            (JSNum.add acc.1 (JSNum.mul (elemAt vecA i) (elemAt vecB i)),
             JSNum.add acc.2.1 (JSNum.mul (elemAt vecA i) (elemAt vecA i)),
             JSNum.add acc.2.2 (JSNum.mul (elemAt vecB i) (elemAt vecB i)))) acc).1 ∧
      Q (l.foldl
          (fun acc i =>
            (JSNum.add acc.1 (JSNum.mul (elemAt vecA i) (elemAt vecB i)),
             JSNum.add acc.2.1 (JSNum.mul (elemAt vecA i) (elemAt vecA i)),
             JSNum.add acc.2.2 (JSNum.mul (elemAt vecB i) (elemAt vecB i)))) acc).2.1 ∧
      R (l.foldl
          (fun acc i =>
            (JSNum.add acc.1 (JSNum.mul (elemAt vecA i) (elemAt vecB i)),
             JSNum.add acc.2.1 (JSNum.mul (elemAt vecA i) (elemAt vecA i)),
             JSNum.add acc.2.2 (JSNum.mul (elemAt vecB i) (elemAt vecB i)))) acc).2.2 := by
  intro l
  induction l with
  | nil => intro acc _ h1 h2 h3; exact ⟨h1, h2, h3⟩
  | cons i l ih =>
    intro acc hl h1 h2 h3
    have hi : i < vecA.length := hl i (List.mem_cons_self _ _)
    rw [List.foldl_cons]
    exact ih _ (fun j hj => hl j (List.mem_cons_of_mem _ hj)) (hP _ _ h1 hi) (hQ _ _ h2 hi)
      (hR _ _ h3 hi)

theorem elemAt_of_all_zero (vec : Embedding) (h : ∀ x ∈ vec, x = fin 0) (i : Nat) :
    ZeroOrNaN (elemAt vec i) := by
  unfold elemAt
  by_cases hi : i < vec.length
  · left
    rw [List.getD_eq_getElem _ _ hi]
    exact h _ (List.getElem_mem hi)
  · right
    rw [List.getD_eq_default _ _ (by omega)]

/-- C5. When every component of `vecA` is 0, or every component of `vecB` is 0,
`cosineSimilarity(vecA, vecB)` is `NaN` (the quotient `0 / 0`), and not 0. -/
theorem cosineSimilarity_zero_magnitude (vecA vecB : Embedding)
    (h : (∀ x ∈ vecA, x = fin 0) ∨ (∀ y ∈ vecB, y = fin 0)) :
    cosineSimilarity vecA vecB = nan ∧ cosineSimilarity vecA vecB ≠ fin 0 := by
  have key : cosineSimilarity vecA vecB = nan := by
    unfold cosineSimilarity cosineSums
    rcases h with hA | hB
    · obtain ⟨h1, h2, _⟩ := cosineSums_foldl_invariant vecA vecB ZeroOrNaN ZeroOrNaN (fun _ => True)
        (fun acc i hacc _ => zeroOrNaN_add _ _ hacc
          (zeroOrNaN_mul_left _ _ (elemAt_of_all_zero vecA hA i)))
        (fun acc i hacc _ => zeroOrNaN_add _ _ hacc
          (zeroOrNaN_mul_left _ _ (elemAt_of_all_zero vecA hA i)))
        (fun _ _ _ _ => trivial)
        (List.range vecA.length) (fin 0, fin 0, fin 0)
        (fun i hi => List.mem_range.mp hi) (Or.inl rfl) (Or.inl rfl) trivial
      exact div_zeroOrNaN _ _ h1 (zeroOrNaN_mul_left _ _ (zeroOrNaN_sqrt _ h2))
    · obtain ⟨h1, _, h3⟩ := cosineSums_foldl_invariant vecA vecB ZeroOrNaN (fun _ => True) ZeroOrNaN
        (fun acc i hacc _ => zeroOrNaN_add _ _ hacc
          (zeroOrNaN_mul_right _ _ (elemAt_of_all_zero vecB hB i)))
        (fun _ _ _ _ => trivial)
        (fun acc i hacc _ => zeroOrNaN_add _ _ hacc
          (zeroOrNaN_mul_right _ _ (elemAt_of_all_zero vecB hB i)))
        (List.range vecA.length) (fin 0, fin 0, fin 0)
        (fun i hi => List.mem_range.mp hi) (Or.inl rfl) trivial (Or.inl rfl)
      exact div_zeroOrNaN _ _ h1 (zeroOrNaN_mul_right _ _ (zeroOrNaN_sqrt _ h3))
  exact ⟨key, by rw [key]; exact fun hne => JSNum.noConfusion hne⟩

theorem cosineSimilarity_zero_magnitude_witness :
    ((∀ x ∈ [fin 0, fin 0], x = fin 0) ∨ (∀ y ∈ [fin 1, fin 0], y = fin 0)) ∧
    cosineSimilarity [fin 0, fin 0] [fin 1, fin 0] = nan ∧
    cosineSimilarity [fin 0, fin 0] [fin 1, fin 0] ≠ fin 0 :=
  ⟨Or.inl (by simp), cosineSimilarity_zero_magnitude [fin 0, fin 0] [fin 1, fin 0]
    (Or.inl (by simp))⟩

end RAGEngine

/-! ### Ranking -/

namespace RAGEngine
open JSNum

theorem orderedInsert_congr {α : Type} (r r2 : α → α → Prop) [DecidableRel r] [DecidableRel r2]
    (a : α) (l : List α) (h : ∀ b ∈ l, r a b ↔ r2 a b) :
    List.orderedInsert r a l = List.orderedInsert r2 a l := by
  induction l with
  | nil => rfl
  | cons b l ih =>
    have hb : r a b ↔ r2 a b := h b (List.mem_cons_self _ _)
    have ih2 := ih (fun c hc => h c (List.mem_cons_of_mem _ hc))
    by_cases hr : r a b
    · simp only [List.orderedInsert, if_pos hr, if_pos (hb.mp hr)]
    · have hr2 : ¬ r2 a b := fun h2 => hr (hb.mpr h2)
      simp only [List.orderedInsert, if_neg hr, if_neg hr2, ih2]

theorem insertionSort_congr {α : Type} (r r2 : α → α → Prop) [DecidableRel r] [DecidableRel r2]
    (l : List α) (h : ∀ a ∈ l, ∀ b ∈ l, r a b ↔ r2 a b) :
    List.insertionSort r l = List.insertionSort r2 l := by
  induction l with
  | nil => rfl
  | cons a l ih =>
    have ih2 := ih (fun x hx y hy => h x (List.mem_cons_of_mem _ hx) y (List.mem_cons_of_mem _ hy))
    simp only [List.insertionSort, ih2]
    apply orderedInsert_congr
    intro b hb
    have hbl : b ∈ l := (List.mem_insertionSort r2).mp hb
    exact h a (List.mem_cons_self _ _) b (List.mem_cons_of_mem _ hbl)

/-- On scores that are not `NaN`, the comparator `b.score - a.score` lets `a` stay
in front of `b` exactly when the score of `a` is at least the score of `b`. -/
theorem staysBefore_iff_descending (a b : Scored) (ha : a.score ≠ nan) (hb : b.score ≠ nan) :
    staysBefore compareScore a b ↔ descending a b := by
  obtain ⟨da, sa⟩ := a
  obtain ⟨db, sb⟩ := b
  simp only [staysBefore, compareScore, descending]
  cases sa with
  | nan => exact absurd rfl ha
  | inf s =>
    cases sb with
    | nan => exact absurd rfl hb
    | inf t => cases s <;> cases t <;> simp [JSNum.sub, JSNum.neg, JSNum.add, isPositive, scoreKey]
    | fin y => cases s <;> simp [JSNum.sub, JSNum.neg, JSNum.add, isPositive, scoreKey]
  | fin x =>
    cases sb with
    | nan => exact absurd rfl hb
    | inf t => cases t <;> simp [JSNum.sub, JSNum.neg, JSNum.add, isPositive, scoreKey]
    | fin y =>
      simp only [JSNum.sub, JSNum.neg, JSNum.add, isPositive, scoreKey, decide_eq_false_iff_not,
        not_lt, WithBot.coe_le_coe, WithTop.coe_le_coe]
      constructor <;> intro h <;> linarith

theorem ge_iff_descending (a b : Scored) (ha : a.score ≠ nan) (hb : b.score ≠ nan) :
    JSNum.ge a.score b.score = true ↔ descending a b := by
  obtain ⟨da, sa⟩ := a
  obtain ⟨db, sb⟩ := b
  simp only [descending]
  cases sa with
  | nan => exact absurd rfl ha
  | inf s =>
    cases sb with
    | nan => exact absurd rfl hb
    | inf t => cases s <;> cases t <;> simp [JSNum.ge, scoreKey]
    | fin y => cases s <;> simp [JSNum.ge, scoreKey]
  | fin x =>
    cases sb with
    | nan => exact absurd rfl hb
    | inf t => cases t <;> simp [JSNum.ge, scoreKey]
    | fin y => simp [JSNum.ge, scoreKey]

/-- The result of `search` has `min(k, store size)` elements, whatever the scores are. -/
theorem rank_length (store : List ChunkRecord) (q : Embedding) (k : Nat) :
    (rank store q k).length = min k store.length := by
  simp [rank, jsSort, List.length_insertionSort]

/-- For `k >= store size` the result holds every stored record exactly once,
whatever the scores are. -/
theorem rank_perm (store : List ChunkRecord) (q : Embedding) (k : Nat) (hk : store.length ≤ k) :
    List.Perm ((rank store q k).map Scored.doc) store := by
  unfold rank jsSort
  rw [List.take_of_length_le (by simpa [List.length_insertionSort] using hk)]
  have h := (List.perm_insertionSort (staysBefore compareScore)
    (store.map (fun doc => Scored.mk doc (cosineSimilarity q doc.embedding)))).map Scored.doc
  refine h.trans ?_
  rw [List.map_map]
  have : (Scored.doc ∘ fun doc => Scored.mk doc (cosineSimilarity q doc.embedding)) = id := by
    funext doc; rfl
  rw [this, List.map_id]

/-- The sort of the model is stable: the records of one score keep their
insertion order. -/
theorem jsSort_stable (l : List Scored) (v : JSNum) :
    (jsSort compareScore l).filter (fun s => decide (s.score = v)) =
      l.filter (fun s => decide (s.score = v)) := by
  have hpair : (l.filter (fun s => decide (s.score = v))).Pairwise (staysBefore compareScore) := by
    rw [List.pairwise_iff_forall_sublist]
    intro a b hab
    have ha : a ∈ l.filter (fun s => decide (s.score = v)) := hab.subset (by simp)
    have hb : b ∈ l.filter (fun s => decide (s.score = v)) := hab.subset (by simp)
    have hav : a.score = v := by simpa using (List.mem_filter.mp ha).2
    have hbv : b.score = v := by simpa using (List.mem_filter.mp hb).2
    simp only [staysBefore, compareScore, hav, hbv]
    cases v with
    | nan => rfl
    | inf s => cases s <;> simp [JSNum.sub, JSNum.neg, JSNum.add, isPositive]
    | fin x => simp [JSNum.sub, JSNum.neg, JSNum.add, isPositive]
  have hsub : List.Sublist (l.filter (fun s => decide (s.score = v))) (jsSort compareScore l) :=
    List.sublist_insertionSort hpair (List.filter_sublist _)
  have hsub2 := hsub.filter (fun s => decide (s.score = v))
  rw [List.filter_filter] at hsub2
  simp only [Bool.and_self] at hsub2
  have hperm : List.Perm ((jsSort compareScore l).filter (fun s => decide (s.score = v)))
      (l.filter (fun s => decide (s.score = v))) :=
    (List.perm_insertionSort (staysBefore compareScore) l).filter _
  exact (hsub2.eq_of_length hperm.length_eq.symm).symm

/-- When no score is `NaN` (so that the order does not depend on the engine), two
results of `search` with the same score come in their insertion order: the
results of one score are an initial segment of the stored records of that
score. -/
theorem rank_stable (store : List ChunkRecord) (q : Embedding) (k : Nat) (v : JSNum)
    (_h : ∀ doc ∈ store, cosineSimilarity q doc.embedding ≠ nan) :
    (rank store q k).filter (fun s => decide (s.score = v)) <+:
      (store.map (fun doc => Scored.mk doc (cosineSimilarity q doc.embedding))).filter
        (fun s => decide (s.score = v)) := by
  have h := (List.take_prefix k (jsSort compareScore
    (store.map (fun doc => Scored.mk doc (cosineSimilarity q doc.embedding))))).filter
      (fun s => decide (s.score = v))
  rw [jsSort_stable] at h
  exact h

/-- When no score is `NaN`, the scores of the result are non-increasing. -/
theorem rank_nonincreasing_of_not_nan (store : List ChunkRecord) (q : Embedding) (k : Nat)
    (h : ∀ doc ∈ store, cosineSimilarity q doc.embedding ≠ nan) :
    (rank store q k).Pairwise (fun a b => JSNum.ge a.score b.score = true) := by
  have hmem : ∀ s ∈ store.map (fun doc => Scored.mk doc (cosineSimilarity q doc.embedding)),
      s.score ≠ nan := by
    intro s hs
    obtain ⟨doc, hdoc, rfl⟩ := List.mem_map.mp hs
    exact h doc hdoc
  have hsort : jsSort compareScore
      (store.map (fun doc => Scored.mk doc (cosineSimilarity q doc.embedding))) =
      List.insertionSort descending
        (store.map (fun doc => Scored.mk doc (cosineSimilarity q doc.embedding))) :=
    insertionSort_congr _ _ _
      (fun a ha b hb => staysBefore_iff_descending a b (hmem a ha) (hmem b hb))
  have hsorted := List.sorted_insertionSort descending
    (store.map (fun doc => Scored.mk doc (cosineSimilarity q doc.embedding)))
  unfold rank
  rw [hsort]
  refine List.Pairwise.sublist (List.take_sublist _ _) ?_
  refine List.Pairwise.imp_of_mem ?_ hsorted
  intro a b ha hb hab
  have ha2 := (List.mem_insertionSort descending).mp ha
  have hb2 := (List.mem_insertionSort descending).mp hb
  exact (ge_iff_descending a b (hmem a ha2) (hmem b hb2)).mpr hab

theorem cosineSimilarity_unit_self :
    cosineSimilarity [fin 1, fin 0] [fin 1, fin 0] = fin 1 := by
  have hs : cosineSums [fin 1, fin 0] [fin 1, fin 0] = (fin 1, fin 1, fin 1) := by
    norm_num [cosineSums, elemAt, List.range, List.range.loop, JSNum.add, JSNum.mul]
  rw [cosineSimilarity, hs]
  simp only [sqrt_fin_one]
  norm_num [JSNum.mul, JSNum.div]

theorem cosineSimilarity_unit_zero :
    cosineSimilarity [fin 1, fin 0] [fin 0, fin 0] = nan := by
  have hs : cosineSums [fin 1, fin 0] [fin 0, fin 0] = (fin 0, fin 1, fin 0) := by
    norm_num [cosineSums, elemAt, List.range, List.range.loop, JSNum.add, JSNum.mul]
  rw [cosineSimilarity, hs]
  simp only [sqrt_fin_one, sqrt_fin_zero]
  norm_num [JSNum.mul, JSNum.div]

/-- C4. A store whose first record has the zero embedding: against the query
`[1, 0]` the scores are `NaN` and 1, the comparator `b.score - a.score` is `NaN`
(counted as "equal"), and `search` returns the records in insertion order, with
scores `NaN, 1`, which are not non-increasing; with `k = 1` the record of score 1
is not returned at all. -/
theorem search_ranking_broken_by_nan :
    rank [ChunkRecord.mk "a" [] [fin 0, fin 0] "A", ChunkRecord.mk "b" [] [fin 1, fin 0] "A"]
        [fin 1, fin 0] 2 =
      [Scored.mk (ChunkRecord.mk "a" [] [fin 0, fin 0] "A") nan,
       Scored.mk (ChunkRecord.mk "b" [] [fin 1, fin 0] "A") (fin 1)] ∧
    JSNum.ge nan (fin 1) = false ∧
    rank [ChunkRecord.mk "a" [] [fin 0, fin 0] "A", ChunkRecord.mk "b" [] [fin 1, fin 0] "A"]
        [fin 1, fin 0] 1 =
      [Scored.mk (ChunkRecord.mk "a" [] [fin 0, fin 0] "A") nan] := by
  have hmap : List.map (fun doc => Scored.mk doc (cosineSimilarity [fin 1, fin 0] doc.embedding))
      [ChunkRecord.mk "a" [] [fin 0, fin 0] "A", ChunkRecord.mk "b" [] [fin 1, fin 0] "A"] =
      [Scored.mk (ChunkRecord.mk "a" [] [fin 0, fin 0] "A") nan,
       Scored.mk (ChunkRecord.mk "b" [] [fin 1, fin 0] "A") (fin 1)] := by
    simp only [List.map, cosineSimilarity_unit_zero, cosineSimilarity_unit_self]
  have hsort : jsSort compareScore
      [Scored.mk (ChunkRecord.mk "a" [] [fin 0, fin 0] "A") nan,
       Scored.mk (ChunkRecord.mk "b" [] [fin 1, fin 0] "A") (fin 1)] =
      [Scored.mk (ChunkRecord.mk "a" [] [fin 0, fin 0] "A") nan,
       Scored.mk (ChunkRecord.mk "b" [] [fin 1, fin 0] "A") (fin 1)] := by
    simp [jsSort, List.insertionSort, List.orderedInsert, staysBefore, compareScore,
      JSNum.sub, JSNum.neg, JSNum.isPositive, JSNum.add]
  refine ⟨?_, rfl, ?_⟩
  · rw [rank, hmap, hsort]
    rfl
  · rw [rank, hmap, hsort]
    rfl

end RAGEngine

/-! ### Ingestion -/

namespace RAGEngine
open JSNum

theorem collapseFrom_length_le (inRun : Bool) (text : JSString) :
    (collapseFrom inRun text).length ≤ text.length := by
  induction text generalizing inRun with
  | nil => simp [collapseFrom]
  | cons c cs ih =>
    unfold collapseFrom
    split
    · split
      · exact Nat.le_succ_of_le (ih true)
      · simpa using ih true
    · simpa using ih false

theorem trim_length_le (s : JSString) : (trim s).length ≤ s.length := by
  unfold trim
  rw [List.length_reverse]
  refine le_trans (List.dropWhile_sublist _).length_le ?_
  rw [List.length_reverse]
  exact (List.dropWhile_sublist _).length_le

theorem cleanText_length_le (text : JSString) : (cleanText text).length ≤ text.length :=
  le_trans (trim_length_le _) (collapseFrom_length_le false text)

/-- The call `chunkText(text, 500, 100)` of `processFiles` returns, and returns the
windows of the specification. -/
theorem chunkText_default (text : JSString) :
    chunkText text.length text 500 100 = some (slidingWindows (cleanText text) 500 100) := by
  have h := chunkText_eq_slidingWindows text text.length (cleanText_length_le text) 500 100
    (by decide)
  simpa using h

/-- The chunk loop ends without a failure exactly when no call of `getEmbedding`
for a chunk of the file raises. -/
theorem embedChunks_fst_eq_none_iff (newId : Nat → String) (file : File) :
    ∀ (chunks : List JSString) (i : Nat) (store : List ChunkRecord),
      (embedChunks newId file chunks i store).1 = none ↔
        ∀ j, j < chunks.length → ∀ message, file.embed (i + j) ≠ EmbedOutcome.raised message := by
  intro chunks
  induction chunks with
  | nil => intro i store; simp [embedChunks]
  | cons chunk rest ih =>
    intro i store
    have step : (∀ j, j < (chunk :: rest).length → ∀ message,
        file.embed (i + j) ≠ EmbedOutcome.raised message) ↔
        ((∀ message, file.embed i ≠ EmbedOutcome.raised message) ∧
          ∀ j, j < rest.length → ∀ message,
            file.embed (i + 1 + j) ≠ EmbedOutcome.raised message) := by
      constructor
      · intro h
        refine ⟨fun m => by simpa using h 0 (by simp) m, fun j hj m => ?_⟩
        have := h (j + 1) (by simpa using hj) m
        rwa [show i + (j + 1) = i + 1 + j by omega] at this
      · rintro ⟨h0, hrest⟩ j hj m
        cases j with
        | zero => simpa using h0 m
        | succ j =>
          have := hrest j (by simpa using hj) m
          rwa [show i + 1 + j = i + (j + 1) by omega] at this
    rw [step]
    unfold embedChunks
    cases hout : file.embed i with
    | raised message =>
      simp only [reduceCtorEq, false_iff, not_and]
      intro h
      exact absurd rfl (h message)
    | data vector =>
      cases vector with
      | none =>
        simp only [ih, ne_eq, reduceCtorEq, not_false_eq_true, implies_true, true_and]
      | some v =>
        simp only [ih, ne_eq, reduceCtorEq, not_false_eq_true, implies_true, true_and]

theorem embeddingsSucceed_iff (file : File) (n : Nat) :
    embeddingsSucceed file n = true ↔
      ∀ j, j < n → ∀ message, file.embed (0 + j) ≠ EmbedOutcome.raised message := by
  unfold embeddingsSucceed
  rw [List.all_eq_true]
  constructor
  · intro h j hj message heq
    have := h j (List.mem_range.mpr hj)
    rw [Nat.zero_add] at heq
    rw [heq] at this
    exact Bool.false_ne_true this
  · intro h j hj
    have hj2 := List.mem_range.mp hj
    have := h j hj2
    rw [Nat.zero_add] at this
    cases hout : file.embed j with
    | raised message => exact absurd hout (this message)
    | data vector => rfl

/-- The loop over the files, with the results built so far: it returns, and the
entries it adds are those the specification expects, in input order. -/
theorem processFilesFrom_entries (newId : Nat → String) :
    ∀ (files : List File) (st : RAGState) (results : List IngestResult),
      ∃ added st2, processFilesFrom newId files st results = some (results ++ added, st2) ∧
        added.map (fun r => (r.name, r.textLength, r.chunkCount)) =
          files.filterMap expectedEntry := by
  intro files
  induction files with
  | nil =>
    intro st results
    exact ⟨[], st, by simp [processFilesFrom], rfl⟩
  | cons file rest ih =>
    intro st results
    unfold processFilesFrom
    by_cases htype : file.type = "application/pdf"
    · rw [if_neg (not_not.mpr htype)]
      cases hext : file.extract with
      | error e =>
        obtain ⟨added, st2, h1, h2⟩ := ih
          (RAGState.mk st.vectorStore (st.progress ++ ["Reading " ++ file.name ++ "..."])) results
        refine ⟨added, st2, h1, ?_⟩
        rw [List.filterMap_cons]
        simp only [expectedEntry, htype, if_true, hext]
        exact h2
      | ok text =>
        simp only [chunkText_default]
        cases hemb : embedChunks newId file (slidingWindows (cleanText text) 500 100) 0
            st.vectorStore with
        | mk err store =>
          have hiff := embedChunks_fst_eq_none_iff newId file
            (slidingWindows (cleanText text) 500 100) 0 st.vectorStore
          rw [hemb, ← embeddingsSucceed_iff] at hiff
          cases err with
          | some message =>
            have hfail : embeddingsSucceed file (slidingWindows (cleanText text) 500 100).length
                = false := by
              cases hs : embeddingsSucceed file (slidingWindows (cleanText text) 500 100).length
              · rfl
              · exact absurd (hiff.mpr hs) (by simp)
            obtain ⟨added, st2, h1, h2⟩ := ih (RAGState.mk store
              (st.progress ++ ["Reading " ++ file.name ++ "..."] ++
                ["Chunking " ++ file.name ++ "..."] ++
                ["Embedding " ++ toString (slidingWindows (cleanText text) 500 100).length ++
                  " segments..."])) results
            refine ⟨added, st2, h1, ?_⟩
            rw [List.filterMap_cons]
            simp only [expectedEntry, htype, if_true, hext, hfail]
            exact h2
          | none =>
            have hsucc : embeddingsSucceed file (slidingWindows (cleanText text) 500 100).length
                = true := hiff.mp rfl
            obtain ⟨added, st2, h1, h2⟩ := ih (RAGState.mk store
              (st.progress ++ ["Reading " ++ file.name ++ "..."] ++
                ["Chunking " ++ file.name ++ "..."] ++
                ["Embedding " ++ toString (slidingWindows (cleanText text) 500 100).length ++
                  " segments..."]))
              (results ++ [IngestResult.mk file.name text.length
                (slidingWindows (cleanText text) 500 100).length store.length])
            refine ⟨IngestResult.mk file.name text.length
                (slidingWindows (cleanText text) 500 100).length store.length :: added, st2, ?_, ?_⟩
            · simpa using h1
            · rw [List.filterMap_cons]
              simp only [expectedEntry, htype, if_true, hext, hsucc, List.map_cons]
              rw [h2]
    · rw [if_pos htype]
      obtain ⟨added, st2, h1, h2⟩ := ih st results
      refine ⟨added, st2, h1, ?_⟩
      rw [List.filterMap_cons]
      simp only [expectedEntry, htype, if_false]
      exact h2

/-- C8. For every list of files `processFiles` returns (it never fails), and the
returned sequence holds, in input order, exactly one entry (name, text length,
chunk count) for each file of type `application/pdf` whose extraction and every
chunk embedding succeeded, and no entry for any other file; a failing file does
not stop the files after it. -/
theorem processFiles_failure_isolation (newId : Nat → String) (files : List File)
    (st : RAGState) :
    ∃ results st2, processFiles newId files st = some (results, st2) ∧
      results.map (fun r => (r.name, r.textLength, r.chunkCount)) =
        files.filterMap expectedEntry := by
  obtain ⟨added, st2, h1, h2⟩ := processFilesFrom_entries newId files st []
  exact ⟨added, st2, by simpa [processFiles] using h1, h2⟩

/-- C10, counterexample. A store holding one record of embedding length 1;
ingesting a file whose only chunk gets an embedding of length 2 does not fail:
the record is appended and the store then holds embeddings of lengths 1 and 2. -/
theorem append_dimension_counterexample :
    processFiles (fun _ => "id")
        [File.mk "application/pdf" "B" (Except.ok (utf16 "x"))
          (fun _ => EmbedOutcome.data (some [fin 1, fin 2]))]
        (RAGState.mk [ChunkRecord.mk "id0" (utf16 "w") [fin 1] "A"] []) =
      some ([IngestResult.mk "B" 1 1 2],
        RAGState.mk
          [ChunkRecord.mk "id0" (utf16 "w") [fin 1] "A",
           ChunkRecord.mk "id" (utf16 "x") [fin 1, fin 2] "B"]
          ["Reading B...", "Chunking B...", "Embedding 1 segments..."]) := by
  rfl

/-- C10, amended. The append of `processFiles` has no dimensionality check: on a
non-empty store, a chunk whose embedding has another length than the embedding
of the first stored record is appended like any other (no failure, the store is
extended by exactly that record), after which the records of the store do not
all have the same embedding length. -/
theorem append_has_no_dimension_check (newId : Nat → String) (file : File) (chunk : JSString)
    (i : Nat) (first : ChunkRecord) (others : List ChunkRecord) (vector : Embedding)
    (hembed : file.embed i = EmbedOutcome.data (some vector))
    (hlen : vector.length ≠ first.embedding.length) :
    embedChunks newId file [chunk] i (first :: others) =
      (none, (first :: others) ++
        [ChunkRecord.mk (newId (first :: others).length) chunk vector file.name]) ∧
    ¬ ∃ D, ∀ r ∈ (embedChunks newId file [chunk] i (first :: others)).2,
        r.embedding.length = D := by
  have h : embedChunks newId file [chunk] i (first :: others) =
      (none, (first :: others) ++
        [ChunkRecord.mk (newId (first :: others).length) chunk vector file.name]) := by
    simp only [embedChunks, hembed]
  refine ⟨h, ?_⟩
  rw [h]
  rintro ⟨D, hD⟩
  have h1 := hD first (by simp)
  have h2 := hD (ChunkRecord.mk (newId (first :: others).length) chunk vector file.name) (by simp)
  simp only at h2
  exact hlen (h2.trans h1.symm)

theorem append_has_no_dimension_check_witness :
    (File.mk "application/pdf" "B" (Except.ok (utf16 "x"))
        (fun _ => EmbedOutcome.data (some [fin 1, fin 2]))).embed 0 =
      EmbedOutcome.data (some [fin 1, fin 2]) ∧
    [fin 1, fin 2].length ≠ (ChunkRecord.mk "id0" (utf16 "w") [fin 1] "A").embedding.length ∧
    (embedChunks (fun _ => "id")
        (File.mk "application/pdf" "B" (Except.ok (utf16 "x"))
          (fun _ => EmbedOutcome.data (some [fin 1, fin 2])))
        [(utf16 "x")] 0 (ChunkRecord.mk "id0" (utf16 "w") [fin 1] "A" :: []) =
      (none, (ChunkRecord.mk "id0" (utf16 "w") [fin 1] "A" :: []) ++
        [ChunkRecord.mk ((fun _ => "id") (ChunkRecord.mk "id0" (utf16 "w") [fin 1] "A" :: []).length)
          (utf16 "x") [fin 1, fin 2]
          (File.mk "application/pdf" "B" (Except.ok (utf16 "x"))
            (fun _ => EmbedOutcome.data (some [fin 1, fin 2]))).name]) ∧
    ¬ ∃ D, ∀ r ∈ (embedChunks (fun _ => "id")
        (File.mk "application/pdf" "B" (Except.ok (utf16 "x"))
          (fun _ => EmbedOutcome.data (some [fin 1, fin 2])))
        [(utf16 "x")] 0 (ChunkRecord.mk "id0" (utf16 "w") [fin 1] "A" :: [])).2,
        r.embedding.length = D) :=
  ⟨rfl, by decide,
    append_has_no_dimension_check (fun _ => "id")
      (File.mk "application/pdf" "B" (Except.ok (utf16 "x"))
        (fun _ => EmbedOutcome.data (some [fin 1, fin 2])))
      (utf16 "x") 0 (ChunkRecord.mk "id0" (utf16 "w") [fin 1] "A") [] [fin 1, fin 2] rfl
      (by decide)⟩

/-- The chunk loop only appends to the store. -/
theorem embedChunks_store_append (newId : Nat → String) (file : File) :
    ∀ (chunks : List JSString) (i : Nat) (store : List ChunkRecord),
      ∃ added, (embedChunks newId file chunks i store).2 = store ++ added ∧
        ∀ r ∈ added, r.source = file.name := by
  intro chunks
  induction chunks with
  | nil => intro i store; exact ⟨[], by simp [embedChunks], by simp⟩
  | cons chunk rest ih =>
    intro i store
    unfold embedChunks
    cases hout : file.embed i with
    | raised message => exact ⟨[], by simp, by simp⟩
    | data vector =>
      cases vector with
      | none => exact ih (i + 1) store
      | some v =>
        obtain ⟨added, h1, h2⟩ := ih (i + 1)
          (store ++ [ChunkRecord.mk (newId store.length) chunk v file.name])
        refine ⟨ChunkRecord.mk (newId store.length) chunk v file.name :: added, ?_, ?_⟩
        · simp only [h1, List.append_assoc, List.singleton_append]
        · intro r hr
          rcases List.mem_cons.mp hr with rfl | hr
          · rfl
          · exact h2 r hr

/-- When the embeddings of the chunks `i .. i + j - 1` succeed with a vector and
the embedding of chunk `i + j` fails, the loop stops with that failure and the
store has grown by exactly `j` records of this file. -/
theorem embedChunks_partial (newId : Nat → String) (file : File) (message : String) :
    ∀ (j : Nat) (chunks : List JSString) (i : Nat) (store : List ChunkRecord),
      j < chunks.length →
      (∀ k, k < j → ∃ v, file.embed (i + k) = EmbedOutcome.data (some v)) →
      file.embed (i + j) = EmbedOutcome.raised message →
      ∃ added, embedChunks newId file chunks i store = (some message, store ++ added) ∧
        added.length = j ∧ ∀ r ∈ added, r.source = file.name := by
  intro j
  induction j with
  | zero =>
    intro chunks i store hlen _ hfail
    cases chunks with
    | nil => exact absurd hlen (by simp)
    | cons chunk rest =>
      rw [Nat.add_zero] at hfail
      exact ⟨[], by simp [embedChunks, hfail], rfl, by simp⟩
  | succ j ih =>
    intro chunks i store hlen hok hfail
    cases chunks with
    | nil => exact absurd hlen (by simp)
    | cons chunk rest =>
      obtain ⟨v, hv⟩ := hok 0 (Nat.succ_pos j)
      rw [Nat.add_zero] at hv
      have hlen2 : j < rest.length := by simpa using hlen
      have hok2 : ∀ k, k < j → ∃ w, file.embed (i + 1 + k) = EmbedOutcome.data (some w) := by
        intro k hk
        have := hok (k + 1) (by omega)
        rwa [show i + (k + 1) = i + 1 + k by omega] at this
      have hfail2 : file.embed (i + 1 + j) = EmbedOutcome.raised message := by
        rwa [show i + (j + 1) = i + 1 + j by omega] at hfail
      obtain ⟨added, h1, h2, h3⟩ := ih rest (i + 1)
        (store ++ [ChunkRecord.mk (newId store.length) chunk v file.name]) hlen2 hok2 hfail2
      refine ⟨ChunkRecord.mk (newId store.length) chunk v file.name :: added, ?_, ?_, ?_⟩
      · simp only [embedChunks, hv, h1, List.append_assoc, List.singleton_append]
      · simp [h2]
      · intro r hr
        rcases List.mem_cons.mp hr with rfl | hr
        · rfl
        · exact h3 r hr

/-- Whatever the loop over the files returns, the store it started from is an
initial segment of the store it ends with. -/
theorem processFilesFrom_store_prefix (newId : Nat → String) :
    ∀ (files : List File) (st : RAGState) (results : List IngestResult)
      (out : List IngestResult × RAGState),
      processFilesFrom newId files st results = some out →
        st.vectorStore <+: out.2.vectorStore := by
  intro files
  induction files with
  | nil =>
    intro st results out h
    simp only [processFilesFrom, Option.some.injEq] at h
    subst h
    exact List.prefix_refl _
  | cons file rest ih =>
    intro st results out h
    unfold processFilesFrom at h
    by_cases htype : file.type = "application/pdf"
    · rw [if_neg (not_not.mpr htype)] at h
      cases hext : file.extract with
      | error e =>
        simp only [hext] at h
        have h2 := ih _ _ _ h
        exact h2
      | ok text =>
        simp only [hext, chunkText_default] at h
        obtain ⟨added, hadd, _⟩ := embedChunks_store_append newId file
          (slidingWindows (cleanText text) 500 100) 0 st.vectorStore
        cases hemb : embedChunks newId file (slidingWindows (cleanText text) 500 100) 0
            st.vectorStore with
        | mk err store =>
          rw [hemb] at h hadd
          have hpre : st.vectorStore <+: store := ⟨added, hadd.symm⟩
          cases err with
          | some message =>
            have h2 := ih _ _ _ h
            exact hpre.trans h2
          | none =>
            have h2 := ih _ _ _ h
            exact hpre.trans h2
    · rw [if_pos htype] at h
      exact ih _ _ _ h

set_option maxRecDepth 100000 in
/-- C12. Ingestion is not atomic per file. The file `halfEmbeddedFile` has 2
chunks, the embedding of the first succeeds and the embedding of the second
fails: `processFiles` returns no entry for it, while the store, empty before, now
holds 1 record whose source is the name of that file. And for every input,
`processFiles` returns and the store before the call is an initial segment of the
store after it. -/
theorem processFiles_not_atomic :
    ((slidingWindows (cleanText (List.replicate 401 97)) 500 100).length = 2 ∧
      processFiles (fun _ => "id") [halfEmbeddedFile] (RAGState.mk [] []) =
        some ([],
          RAGState.mk [ChunkRecord.mk "id" (List.replicate 401 97) [JSNum.fin 1] "A.pdf"]
            ["Reading A.pdf...", "Chunking A.pdf...", "Embedding 2 segments..."])) ∧
    ∀ (newId : Nat → String) (files : List File) (st : RAGState),
      ∃ results st2, processFiles newId files st = some (results, st2) ∧
        st.vectorStore <+: st2.vectorStore := by
  refine ⟨⟨?_, ?_⟩, ?_⟩
  · rfl
  · rfl
  · intro newId files st
    obtain ⟨added, st2, h1, _⟩ := processFilesFrom_entries newId files st []
    refine ⟨[] ++ added, st2, h1, ?_⟩
    exact processFilesFrom_store_prefix newId files st [] _ h1

end RAGEngine

/-! ### Chat session -/

namespace LLMClient

/-- With a backend that is disposed at every request, the recovery branch calls
`chat` again and again: the call has not returned at any depth. -/
theorem chat_alwaysDisposed_never_returns (userMessage context : String)
    (options : GenerationOptions) (onUpdate : Bool) :
    ∀ (fuel : Nat) (st : LLMClient), st.engine.isSome = true →
      chat alwaysDisposed fuel st userMessage context options onUpdate = none := by
  intro fuel
  induction fuel with
  | zero => intro st _; rfl
  | succ fuel ih =>
    intro st hst
    have hnone : st.engine.isNone = false := by
      cases h : st.engine with
      | none => rw [h] at hst; exact absurd hst (by decide)
      | some n => rfl
    have hinc : jsIncludes "Model has already been disposed" "disposed" = true := by decide
    simp only [chat, hnone, alwaysDisposed, hinc, init, settle, if_true, Bool.false_eq_true,
      if_false, Option.isSome_none]
    apply ih
    rfl

/-- Without a failure of the stream, a send on a ready backend returns the
concatenation of the deltas, and the history grows by the user turn of the send
followed by the assistant turn holding the returned text. -/
theorem chat_normal_completion (be : Backend) (st : LLMClient) (handle : Nat)
    (userMessage context : String) (options : GenerationOptions) (onUpdate : Bool)
    (fuel : Nat)
    (hengine : st.engine = some handle)
    (hend : ∀ message, (be.generate st.requests.length
        (Message.mk Role.system
            (if options.systemPrompt = "" then defaultSystemPrompt else options.systemPrompt) ::
          (st.history ++ [Message.mk Role.user (composeUserContent userMessage context)]))
        (options.temperature.getD (7 / 10))).ending ≠ StreamEnd.raised message) :
    ∃ text st2, chat be (fuel + 1) st userMessage context options onUpdate =
        some (Except.ok text, st2) ∧
      st2.history = st.history ++
        [Message.mk Role.user (composeUserContent userMessage context),
         Message.mk Role.assistant text] ∧
      st2.requests = st.requests ++
        [Message.mk Role.system
            (if options.systemPrompt = "" then defaultSystemPrompt else options.systemPrompt) ::
          (st.history ++ [Message.mk Role.user (composeUserContent userMessage context)])] := by
  have hnone : st.engine.isNone = false := by rw [hengine]; rfl
  cases hE : (be.generate st.requests.length
      (Message.mk Role.system
          (if options.systemPrompt = "" then defaultSystemPrompt else options.systemPrompt) ::
        (st.history ++ [Message.mk Role.user (composeUserContent userMessage context)]))
      (options.temperature.getD (7 / 10))).ending with
  | raised message => exact absurd hE (hend message)
  | completed =>
    simp only [chat, hnone, Bool.false_eq_true, if_false, hE]
    refine ⟨_, _, rfl, ?_, ?_⟩
    · cases onUpdate <;> simp [notify]
    · cases onUpdate <;> simp [notify]
  | stopped =>
    simp only [chat, hnone, Bool.false_eq_true, if_false, hE]
    refine ⟨_, _, rfl, ?_, ?_⟩
    · cases onUpdate <;> simp [notify]
    · cases onUpdate <;> simp [notify]

/-- C1. A send on a ready backend whose first two generation requests fail with
a disposed-backend error and whose third one succeeds: `chat` returns `ok` after
3 generation requests and 2 reconstructions (3 constructions in all), so the
failure of the re-issued request did not propagate; and when every request fails
that way, `chat` never returns. -/
theorem chat_retry_not_bounded :
    (chat twiceDisposed 3 readyClient "q" "" (GenerationOptions.mk "" none) true).map
        (fun r => (r.1, r.2.requests.length, r.2.constructions)) =
      some (Except.ok "ok", 3, 3) ∧
    ∀ fuel, chat alwaysDisposed fuel readyClient "q" "" (GenerationOptions.mk "" none) true =
      none :=
  ⟨rfl, fun fuel => chat_alwaysDisposed_never_returns "q" "" _ true fuel readyClient rfl⟩

/-- C6. A send that succeeds through the recovery retry: the history, empty
before, ends as two user turns followed by the assistant turn, and the re-issued
request carries one more user message than the request that met the loss. -/
theorem chat_retry_duplicates_user_turn :
    (chat onceDisposed 2 readyClient "q" "" (GenerationOptions.mk "s" none) true).map
        (fun r => (r.1, r.2.history, r.2.requests)) =
      some (Except.ok "ok",
        [Message.mk Role.user "q", Message.mk Role.user "q", Message.mk Role.assistant "ok"],
        [[Message.mk Role.system "s", Message.mk Role.user "q"],
         [Message.mk Role.system "s", Message.mk Role.user "q", Message.mk Role.user "q"]]) := by
  rfl

/-- C7. The stream delivers `Hel` and then ends early because `interrupt()` was
called: `chat` does not fail, it returns `Hel` normally and appends it to the
history as an assistant turn, so that `onMessageSend` takes its success branch
(status `Ready`) and never its branch for an interrupted generation. -/
theorem chat_stopped_stream_returns_normally :
    (stoppedEarly.generate 0 [Message.mk Role.system "s", Message.mk Role.user "q"]
        (7 / 10)).ending = StreamEnd.stopped ∧
    (chat stoppedEarly 1 readyClient "q" "" (GenerationOptions.mk "s" none) true).map
        (fun r => (r.1, r.2.history, App.present r.1)) =
      some (Except.ok "Hel",
        [Message.mk Role.user "q", Message.mk Role.assistant "Hel"],
        ("Hel", "Ready")) := by
  exact ⟨rfl, rfl⟩

/-- A failure thrown from the stream whose message does not hold `disposed`
leaves `chat` on a ready backend as that same failure, and the history is the
history before followed by the user turn of this send, with no assistant turn. -/
theorem chat_thrown_failure_propagates (be : Backend) (st : LLMClient) (handle : Nat)
    (userMessage context : String) (options : GenerationOptions) (onUpdate : Bool)
    (fuel : Nat) (message : String)
    (hengine : st.engine = some handle)
    (hend : (be.generate st.requests.length
        (Message.mk Role.system
            (if options.systemPrompt = "" then defaultSystemPrompt else options.systemPrompt) ::
          (st.history ++ [Message.mk Role.user (composeUserContent userMessage context)]))
        (options.temperature.getD (7 / 10))).ending = StreamEnd.raised message)
    (hnot : jsIncludes message "disposed" = false) :
    ∃ st2, chat be (fuel + 1) st userMessage context options onUpdate =
        some (Except.error message, st2) ∧
      st2.history =
        st.history ++ [Message.mk Role.user (composeUserContent userMessage context)] := by
  have hnone : st.engine.isNone = false := by rw [hengine]; rfl
  simp only [chat, hnone, Bool.false_eq_true, if_false, hend, hnot]
  refine ⟨_, rfl, ?_⟩
  unfold notify
  split <;> rfl

/-- Only when the backend throws a failure whose message holds `interrupted` does
`onMessageSend` show the generation as stopped by the user. -/
theorem chat_thrown_interruption_presented :
    (chat raisesInterrupted 1 readyClient "q" "" (GenerationOptions.mk "s" none) true).map
        (fun r => (r.1, r.2.history, App.present r.1)) =
      some (Except.error "Generation interrupted", [Message.mk Role.user "q"],
        ("**[Generation Stopped by User]**", "Stopped")) := by
  rfl

theorem join_cons (d : String) (ds : List String) :
    String.join (d :: ds) = d ++ String.join ds := by
  apply String.ext
  simp [String.data_join]

/-- The streaming loop, started with the text `full` and the partial texts
`partials`: it appends to `full` the concatenation of the deltas, and to
`partials` one text for every delta, the text accumulated up to that delta. -/
theorem streamLoop_eq (chunks : List (Option String)) :
    ∀ (full : String) (partials : List String),
      streamLoop chunks full partials =
        (full ++ String.join (deltasOf chunks),
         partials ++ (List.range (deltasOf chunks).length).map
           (fun i => full ++ String.join ((deltasOf chunks).take (i + 1)))) := by
  induction chunks with
  | nil =>
    intro full partials
    simp [streamLoop, deltasOf, String.join]
  | cons chunk rest ih =>
    intro full partials
    have hd : deltasOf (chunk :: rest) = chunk.getD "" :: deltasOf rest := rfl
    have hhead : full ++ String.join (List.take (0 + 1) (chunk.getD "" :: deltasOf rest)) =
        full ++ chunk.getD "" := by
      rw [Nat.zero_add, List.take_succ_cons, List.take_zero, join_cons]
      simp [String.join]
    have htail : (List.range (deltasOf rest).length).map
          (fun i => full ++ chunk.getD "" ++ String.join ((deltasOf rest).take (i + 1))) =
        (List.range (deltasOf rest).length).map
          ((fun i => full ++ String.join ((chunk.getD "" :: deltasOf rest).take (i + 1))) ∘
            Nat.succ) := by
      apply List.map_congr_left
      intro i _
      simp only [Function.comp, List.take_succ_cons, join_cons, String.append_assoc]
    rw [streamLoop, ih, hd, join_cons, String.append_assoc, List.length_cons,
      List.range_succ_eq_map, List.map_cons, List.map_map, hhead, htail, List.append_assoc,
      List.singleton_append]

theorem streamLoop_start (chunks : List (Option String)) :
    streamLoop chunks "" [] =
      (String.join (deltasOf chunks), expectedPartials (deltasOf chunks)) := by
  rw [streamLoop_eq]
  simp [expectedPartials]

theorem length_expectedPartials (deltas : List String) :
    (expectedPartials deltas).length = deltas.length := by
  simp [expectedPartials]

theorem getElem_expectedPartials (deltas : List String) (i : Nat) (h : i < deltas.length) :
    (expectedPartials deltas)[i]? = some (String.join (deltas.take (i + 1))) := by
  simp [expectedPartials, h]

/-- C11. A send on a ready backend whose stream delivers the deltas `d1 .. dn`
and ends without a failure: `onUpdate` is called exactly `n` times, the `i`-th
time with the concatenation `d1 .. di`; `chat` returns the concatenation
`d1 .. dn`; and the history grows by the user turn of the send and the assistant
turn holding that same text. -/
theorem chat_streaming_accumulation (be : Backend) (st : LLMClient) (handle : Nat)
    (userMessage context : String) (options : GenerationOptions) (fuel : Nat)
    (hengine : st.engine = some handle)
    (hend : ∀ message,
      (answer be st userMessage context options).ending ≠ StreamEnd.raised message) :
    ∃ st2, chat be (fuel + 1) st userMessage context options true =
        some (Except.ok
          (String.join (deltasOf (answer be st userMessage context options).chunks)), st2) ∧
      st2.updates = st.updates ++
        expectedPartials (deltasOf (answer be st userMessage context options).chunks) ∧
      (expectedPartials (deltasOf (answer be st userMessage context options).chunks)).length =
        (answer be st userMessage context options).chunks.length ∧
      (∀ i, i < (answer be st userMessage context options).chunks.length →
        (expectedPartials (deltasOf (answer be st userMessage context options).chunks))[i]? =
          some (String.join
            ((deltasOf (answer be st userMessage context options).chunks).take (i + 1)))) ∧
      st2.history = st.history ++
        [Message.mk Role.user (composeUserContent userMessage context),
         Message.mk Role.assistant
           (String.join (deltasOf (answer be st userMessage context options).chunks))] := by
  have hnone : st.engine.isNone = false := by rw [hengine]; rfl
  have hlen : (deltasOf (answer be st userMessage context options).chunks).length =
      (answer be st userMessage context options).chunks.length := by
    simp [deltasOf]
  have hp1 := length_expectedPartials (deltasOf (answer be st userMessage context options).chunks)
  have hp2 : ∀ i, i < (answer be st userMessage context options).chunks.length →
      (expectedPartials (deltasOf (answer be st userMessage context options).chunks))[i]? =
        some (String.join
          ((deltasOf (answer be st userMessage context options).chunks).take (i + 1))) :=
    fun i hi => getElem_expectedPartials _ i (by rw [hlen]; exact hi)
  rw [hlen] at hp1
  unfold answer requestMessages at hend hp1 hp2 ⊢
  cases hE : (be.generate st.requests.length
      (Message.mk Role.system
          (if options.systemPrompt = "" then defaultSystemPrompt else options.systemPrompt) ::
        (st.history ++ [Message.mk Role.user (composeUserContent userMessage context)]))
      (options.temperature.getD (7 / 10))).ending with
  | raised message => exact absurd hE (hend message)
  | completed =>
    simp only [chat, hnone, Bool.false_eq_true, if_false, hE, streamLoop_start]
    refine ⟨_, rfl, ?_, hp1, hp2, ?_⟩ <;> simp [notify]
  | stopped =>
    simp only [chat, hnone, Bool.false_eq_true, if_false, hE, streamLoop_start]
    refine ⟨_, rfl, ?_, hp1, hp2, ?_⟩ <;> simp [notify]

theorem chat_streaming_accumulation_witness :
    ∃ st2, chat streamsHello (0 + 1) readyClient "q" "" (GenerationOptions.mk "s" none) true =
        some (Except.ok (String.join (deltasOf
          (answer streamsHello readyClient "q" "" (GenerationOptions.mk "s" none)).chunks)), st2) ∧
      st2.updates = readyClient.updates ++ expectedPartials (deltasOf
        (answer streamsHello readyClient "q" "" (GenerationOptions.mk "s" none)).chunks) ∧
      (expectedPartials (deltasOf
        (answer streamsHello readyClient "q" "" (GenerationOptions.mk "s" none)).chunks)).length =
        (answer streamsHello readyClient "q" "" (GenerationOptions.mk "s" none)).chunks.length ∧
      (∀ i, i < (answer streamsHello readyClient "q" ""
          (GenerationOptions.mk "s" none)).chunks.length →
        (expectedPartials (deltasOf (answer streamsHello readyClient "q" ""
          (GenerationOptions.mk "s" none)).chunks))[i]? =
          some (String.join ((deltasOf (answer streamsHello readyClient "q" ""
            (GenerationOptions.mk "s" none)).chunks).take (i + 1)))) ∧
      st2.history = readyClient.history ++
        [Message.mk Role.user (composeUserContent "q" ""),
         Message.mk Role.assistant (String.join (deltasOf
           (answer streamsHello readyClient "q" "" (GenerationOptions.mk "s" none)).chunks))] :=
  chat_streaming_accumulation streamsHello readyClient 0 "q" "" (GenerationOptions.mk "s" none) 0
    rfl (fun _ h => StreamEnd.noConfusion h)

end LLMClient

